import Mathlib

/-!
Shallow embedding of the gptools covariance-kernel core, from
`gptools/utils.py` and `gptools/kernel/core.py`.

Numeric conventions: Python floats are modelled as rationals (`ℚ`),
integer arrays as `ℕ`-lists, and two-dimensional arrays as lists of
row lists.  Callables that are merely stored and concatenated
(hyperpriors, potentials) are modelled as opaque tags (`ℕ`), since
only their count and ordering matter to the verified claims.
Exceptions (`NotImplementedError`, `ValueError`, `GPArgumentError`)
are modelled with `Except`.
-/

namespace gptools

/-! ## Embedding of `gptools/utils.py` -/

/-- Embedding of `gptools.utils.incomplete_bell_poly`, acting on one
argument row.  The row is modelled as `x : ℕ → ℚ`, where `x m` stands
for the column `x[:, m]` (0-based, so `x 0` is the mathematical
`x_1`); numpy's vectorisation over the `p` independent rows is
recovered by `incomplete_bell_poly_rows`.  The Python guard chain
(`n == 0 and k == 0 → ones`, `k == 0 and n >= 1 → zeros`,
`n == 0 and k >= 1 → zeros`, else the accumulation over
`m in xrange(0, n - k + 1)` of
`x[:, m] * binom(n - 1, m) * incomplete_bell_poly(n - (m + 1), k - 1, x)`)
is reorganised by matching on `k` first, which exposes the structural
recursion (every recursive call decreases `k` by one); the case split
is unchanged.  Python's `n - k + 1` loop bound is an int expression
that may be non-positive (empty loop), hence the clamped
`List.range (n + 1 - k)`. -/
def incomplete_bell_poly (n k : ℕ) (x : ℕ → ℚ) : ℚ :=
  match k with
  | 0 => if n = 0 then 1 else 0
  | kk + 1 =>
    if n = 0 then 0
    else ((List.range (n + 1 - (kk + 1))).map
      (fun m => x m * (Nat.choose (n - 1) m : ℚ) *
        incomplete_bell_poly (n - (m + 1)) kk x)).sum

/-- Vectorised form of `incomplete_bell_poly`: the source operates on a
batch of `p` argument rows at once; each row is processed
independently by the same recurrence. -/
def incomplete_bell_poly_rows (n k : ℕ) (xs : List (ℕ → ℚ)) : List ℚ :=
  xs.map (incomplete_bell_poly n k)

/-- Embedding of the index search in Step 4 of
`gptools.utils.generate_set_partition_strings`:
`j = (a[:-1] != b[:-1]).nonzero()[0][-1]`, the rightmost index
`j < len(a) - 1` with `a[j] ≠ b[j]` (`none` when no index differs,
in which case the Python expression would raise). -/
def findJ (a b : List ℕ) : Option ℕ :=
  ((List.range (a.length - 1)).filter
    (fun i => decide (a.getD i 0 ≠ b.getD i 0))).getLast?

/-- Loop of Knuth's Algorithm H as implemented in
`gptools.utils.generate_set_partition_strings`: visit the current
restricted-growth string `a`, then either increment its last entry
(Step 3), or carry into the rightmost incrementable position `j`,
resetting the tail of `a` to zeros and the tail of `b` to the new
bound (Steps 4-6), terminating when `j = 0`.  The Python `while True`
loop is modelled with an explicit `fuel` bound on the iteration
count; `generate_set_partition_strings` supplies a provably
sufficient amount. -/
def hLoop : ℕ → List ℕ → List ℕ → List (List ℕ) → List (List ℕ)
  | 0, _, _, acc => acc
  | fuel + 1, a, b, acc =>
    let n := a.length
    let acc' := acc ++ [a]
    if a.getD (n - 1) 0 = b.getD (n - 1) 0 then
      match findJ a b with
      | none => acc'
      | some j =>
        if j = 0 then acc'
        else
          let aj := a.getD j 0 + 1
          let bl := b.getD j 0 + (if aj = b.getD j 0 then 1 else 0)
          hLoop fuel (a.take j ++ aj :: List.replicate (n - 1 - j) 0)
                     (b.take (j + 1) ++ List.replicate (n - 1 - j) bl) acc'
    else
      hLoop fuel (a.set (n - 1) (a.getD (n - 1) 0 + 1)) b acc'

/-- Embedding of `gptools.utils.generate_set_partition_strings`:
all restricted-growth strings of the partitions of an `n`-member set,
in lexicographic order.  Edge cases from the source: `n = 0` yields
`[]`, `n = 1` yields the single string `[0]`; otherwise Algorithm H
runs from `a = zeros(n)`, `b = ones(n)`.  The fuel `(n + 1) ^ n`
bounds the number of loop iterations (the visited strings are
strictly lexicographically increasing words with digits `< n`). -/
def generate_set_partition_strings (n : ℕ) : List (List ℕ) :=
  if n = 0 then []
  else if n = 1 then [[0]]
  else hLoop ((n + 1) ^ n) (List.replicate n 0) (List.replicate n 1) []

/-- Sorted insertion without duplication, used to embed `scipy.unique`
on a one-dimensional integer array (sorted distinct values). -/
def insertSorted (v : ℕ) : List ℕ → List ℕ
  | [] => [v]
  | w :: ws =>
    if v = w then w :: ws
    else if v < w then v :: w :: ws
    else w :: insertSorted v ws

/-- Embedding of `scipy.unique(string)` for a one-dimensional integer
array: the distinct values in increasing order. -/
def uniqueSorted (l : List ℕ) : List ℕ := l.foldr insertSorted []

/-- Embedding of `gptools.utils.generate_set_partitions`: for each
restricted-growth string of length `len(set_)`, the blocks are
`set_[string == block_num]` for each `block_num` in
`scipy.unique(string)` (ascending block labels). -/
def generate_set_partitions (set_ : List ℕ) : List (List (List ℕ)) :=
  (generate_set_partition_strings set_.length).map (fun string =>
    (uniqueSorted string).map (fun bn =>
      (set_.zip string).filterMap (fun p => if p.2 = bn then some p.1 else none)))

/-- Embedding of `gptools.utils.unique_rows`: a copy of `arr` with
duplicate rows removed (exact elementwise equality).  The source
views each row as one opaque record and applies
`scipy.unique(..., return_index=True)`, so each distinct row is kept
exactly once, indexed at its first occurrence, and returned in the
byte-wise sort order of the rows; the spec leaves the output order
unspecified, and the embedding keeps the first occurrences in input
order. -/
def unique_rows {α : Type} [DecidableEq α] (arr : List (List α)) : List (List α) :=
  arr.foldl (fun acc r => if r ∈ acc then acc else acc ++ [r]) []

/-! ## Embedding of `gptools/kernel/core.py` -/

/-- Failure modes of the kernel layer: `NotImplementedError`,
`ValueError` and `GPArgumentError` from the source. -/
inductive GPError where
  | notImplemented
  | valueError (msg : String)
  | gpArgumentError (msg : String)
deriving DecidableEq

/-- State of the `Kernel` base class (`gptools.kernel.core.Kernel`):
the hyperparameter container.  `params` are floats, `fixed_params` a
boolean mask of the same length, `param_bounds` inclusive
(lower, upper) pairs; `hyperpriors` and `potentials` are stored
callables, modelled as opaque tags. -/
structure Kernel where
  num_dim : ℕ
  num_params : ℕ
  params : List ℚ
  fixed_params : List Bool
  param_bounds : List (ℚ × ℚ)
  enforce_bounds : Bool
  hyperpriors : List ℕ
  is_log : List Bool
  potentials : List ℕ
deriving DecidableEq

/-- Embedding of the property `Kernel.free_params`:
`self.params[~self.fixed_params]`, the non-fixed entries of `params`
in declaration order. -/
def Kernel.free_params (k : Kernel) : List ℚ :=
  (k.params.zip k.fixed_params).filterMap
    (fun pf => if pf.2 then none else some pf.1)

/-- Embedding of the property `Kernel.free_param_bounds`:
the bounds of the non-fixed parameters, in declaration order. -/
def Kernel.free_param_bounds (k : Kernel) : List (ℚ × ℚ) :=
  (k.param_bounds.zip k.fixed_params).filterMap
    (fun bf => if bf.2 then none else some bf.1)

/-- Clamping of one incoming value to its inclusive bounds, as in
`Kernel.set_hyperparams`: a value below the lower bound becomes the
lower bound, else a value above the upper bound becomes the upper
bound. -/
def clampToBounds (b : ℚ × ℚ) (v : ℚ) : ℚ :=
  if v < b.1 then b.1 else if b.2 < v then b.2 else v

/-- Embedding of the numpy masked in-place write
`params[~fixed_params] = vals`: positions with a `true` mask keep
their old entry, positions with a `false` mask consume the next value
of `vals` in order. -/
def maskedWrite : List ℚ → List Bool → List ℚ → List ℚ
  | [], _, _ => []
  | p :: ps, [], _ => p :: ps
  | p :: ps, f :: fs, vals =>
    if f then p :: maskedWrite ps fs vals
    else
      match vals with
      | [] => p :: maskedWrite ps fs []
      | v :: vs => v :: maskedWrite ps fs vs

/-- Embedding of `Kernel.set_hyperparams`: requires the incoming
vector to have the shape of `free_params`; if `enforce_bounds` is
set, each incoming value is first clamped to the corresponding free
bound; the (possibly clamped) values are then written into the free
slots of `params`.  Any other length raises a `ValueError` before
any mutation. -/
def Kernel.set_hyperparams (k : Kernel) (new_params : List ℚ) :
    Except GPError Kernel :=
  if new_params.length = k.free_params.length then
    let vals :=
      if k.enforce_bounds then
        List.zipWith (fun v b => clampToBounds b v) new_params k.free_param_bounds
      else new_params
    .ok { k with params := maskedWrite k.params k.fixed_params vals }
  else
    .error (.valueError "Length of new_params must match the free parameter count!")

/-- Per-row form of `Kernel._compute_r2l2`: the anisotropic squared
distance `sum_d (tau_d / l_d)^2`, the length scales `l` being the
last `num_dim` entries of `params`. -/
def r2l2row (k : Kernel) (row : List ℚ) : ℚ :=
  (List.zipWith (fun t l => (t / l) ^ 2) row
    (k.params.drop (k.params.length - k.num_dim))).sum

/-- Embedding of `Kernel._compute_r2l2` over an `M × N` matrix of
difference vectors. -/
def Kernel._compute_r2l2 (k : Kernel) (tau : List (List ℚ)) : List ℚ :=
  tau.map (r2l2row k)

/-- Calling fingerprint of `evaluate` (`__call__`): coordinate rows
`Xi`, `Xj`, derivative-order rows `ni`, `nj`, the `hyper_deriv`
index, and the `symmetric` flag, producing a covariance vector or an
error. -/
def EvalFn : Type :=
  List (List ℚ) → List (List ℚ) → List (List ℕ) → List (List ℕ) →
    Option ℕ → Bool → Except GPError (List ℚ)

/-- Embedding of the abstract `Kernel.__call__`: a method stub that
unconditionally raises `NotImplementedError`. -/
def Kernel.call (_k : Kernel) : EvalFn := fun _ _ _ _ _ _ =>
  .error .notImplemented

/-- The two concrete binary combinators, `SumKernel` and
`ProductKernel`. -/
inductive BinOp where
  | sum
  | prod
deriving DecidableEq

/-- The kernel class hierarchy as a tree: a leaf holds the state of
any non-combinator kernel, and a `BinaryKernel` node holds its two
children `k1`, `k2` together with the `Kernel` state built by its
`__init__` (the concatenated hyperparameter container). -/
inductive KernelTree where
  | leaf (k : Kernel)
  | node (op : BinOp) (k1 k2 : KernelTree) (base : Kernel)
deriving DecidableEq

/-- The `Kernel` state carried by a tree: a leaf's own state, or the
combinator's concatenated state. -/
def KernelTree.asKernel : KernelTree → Kernel
  | .leaf k => k
  | .node _ _ _ base => base

/-- Embedding of `BinaryKernel.__init__`: requires both operands to be
kernels (statically true here) with equal `num_dim`, then builds the
parent `Kernel` state as the exact `k1`-then-`k2` concatenation of
`params`, `fixed_params`, `param_bounds`, `hyperpriors` and `is_log`;
`num_params` is the sum.  The parent's `enforce_bounds` and
`potentials` take the base-class defaults (`False`, `[]`). -/
def mkBinaryKernel (op : BinOp) (t1 t2 : KernelTree) :
    Except GPError KernelTree :=
  let k1 := t1.asKernel
  let k2 := t2.asKernel
  if k1.num_dim = k2.num_dim then
    .ok (.node op t1 t2
      { num_dim := k1.num_dim
        num_params := k1.num_params + k2.num_params
        params := k1.params ++ k2.params
        fixed_params := k1.fixed_params ++ k2.fixed_params
        param_bounds := k1.param_bounds ++ k2.param_bounds
        enforce_bounds := false
        hyperpriors := k1.hyperpriors ++ k2.hyperpriors
        is_log := k1.is_log ++ k2.is_log
        potentials := [] })
  else
    .error (.valueError "Only kernels having the same number of dimensions can be combined!")

/-- Embedding of `set_hyperparams` with virtual dispatch: a leaf runs
`Kernel.set_hyperparams`; a combinator node runs
`BinaryKernel.set_hyperparams`, which checks the incoming length
against its own free-parameter count, writes the raw values into the
free slots of its own `params` (a direct masked assignment, no
clamping), then splits the vector at `sum(~k1.fixed_params)` and
delegates the first segment to `k1` and the remainder to `k2`. -/
def KernelTree.set_hyperparams : KernelTree → List ℚ → Except GPError KernelTree
  | .leaf k, new_params => (k.set_hyperparams new_params).map .leaf
  | .node op t1 t2 base, new_params =>
    if new_params.length = base.free_params.length then
      let base' := { base with
        params := maskedWrite base.params base.fixed_params new_params }
      let numFreeK1 := t1.asKernel.fixed_params.count false
      match t1.set_hyperparams (new_params.take numFreeK1) with
      | .error e => .error e
      | .ok t1' =>
        match t2.set_hyperparams (new_params.drop numFreeK1) with
        | .error e => .error e
        | .ok t2' => .ok (.node op t1' t2' base')
    else
      .error (.valueError "Length of new_params must match the free parameter count!")

/-- Embedding of `SumKernel.__call__`: reject a non-`None`
`hyper_deriv` with `NotImplementedError`, otherwise forward all
arguments to both children and add the results elementwise. -/
def SumKernel.call (f1 f2 : EvalFn) : EvalFn :=
  fun Xi Xj ni nj hyper_deriv symmetric =>
    if hyper_deriv ≠ none then .error .notImplemented
    else
      (f1 Xi Xj ni nj hyper_deriv symmetric).bind fun K1 =>
        (f2 Xi Xj ni nj hyper_deriv symmetric).map fun K2 =>
          List.zipWith (· + ·) K1 K2

/-- Embedding of `ProductKernel.__call__`: forward all arguments —
`hyper_deriv` included, unchecked — to both children and multiply the
results elementwise. -/
def ProductKernel.call (f1 f2 : EvalFn) : EvalFn :=
  fun Xi Xj ni nj hyper_deriv symmetric =>
    (f1 Xi Xj ni nj hyper_deriv symmetric).bind fun K1 =>
      (f2 Xi Xj ni nj hyper_deriv symmetric).map fun K2 =>
        List.zipWith (· * ·) K1 K2

/-- State of a concrete `ChainRuleKernel` subclass: the base `Kernel`
container plus the three primitives a subclass must supply —
`_compute_k` (the base covariance as a function of one `tau` row),
`_compute_dk_dy` (the pure derivative of order `m` of the base
covariance with respect to `y`, per point), and `_compute_dy_dtau`
(the mixed partial of `y` with respect to the `tau` dimensions listed
in one partition block, per point, given that row's `r2l2`). -/
structure ChainRuleKernel where
  toKernel : Kernel
  compute_k : List ℚ → ℚ
  compute_dk_dy : ℚ → ℕ → ℚ
  compute_dy_dtau : List ℚ → List ℕ → ℚ → ℚ

/-- Modelled from the spec: the subclass hook `_compute_y` is not part
of the two source files under review (only its call sites are); §4.3
of the spec defines it as the anisotropic squared distance
`y = sum_d (tau_d / l_d)^2` computed by the shared helper
`_compute_r2l2`, which is in the source. -/
def ChainRuleKernel._compute_y (ck : ChainRuleKernel) (row : List ℚ) : ℚ :=
  r2l2row ck.toKernel row

/-- Per-row embedding of `ChainRuleKernel._compute_dk_dtau_on_partition`:
the Faa di Bruno term for one partition `p`, namely
`dk_dy(y, |p|)` multiplied by `dy_dtau(tau, b, r2l2)` for each block
`b` of `p`. -/
def ChainRuleKernel._compute_dk_dtau_on_partition (ck : ChainRuleKernel)
    (row : List ℚ) (p : List (List ℕ)) : ℚ :=
  let r2l2 := r2l2row ck.toKernel row
  let y := ck._compute_y row
  p.foldl (fun acc b => acc * ck.compute_dy_dtau row b r2l2)
    (ck.compute_dk_dy y p.length)

/-- The derivative pattern of a multi-index (`ChainRuleKernel._compute_dk_dtau`):
each dimension index repeated as many times as its derivative order,
e.g. `[2, 1, 0] → [0, 0, 1]`. -/
def derivPattern (n : List ℕ) : List ℕ :=
  (List.range n.length).flatMap (fun idx => List.replicate (n.getD idx 0) idx)

/-- Embedding of `ChainRuleKernel._compute_dk_dtau` (vectorised over
the rows of `tau`, which all share the multi-index `n`): an empty
derivative pattern short-circuits to the base covariance; otherwise
the terms of the multivariate Faa di Bruno formula are accumulated
over all set partitions of the pattern. -/
def ChainRuleKernel._compute_dk_dtau (ck : ChainRuleKernel)
    (tau : List (List ℚ)) (n : List ℕ) : List ℚ :=
  let deriv_pattern := derivPattern n
  if deriv_pattern = [] then tau.map ck.compute_k
  else
    let deriv_partitions := generate_set_partitions deriv_pattern
    tau.map (fun row =>
      (deriv_partitions.map (ck._compute_dk_dtau_on_partition row)).sum)

/-- The rows of `rows` at the positions where `keys` equals `state`:
embeds the numpy boolean-mask selection `tau[idxs]` for
`idxs = (n_combined == n_combined_state).all(axis=1)`. -/
def selectRows {α : Type} (rows : List α) (keys : List (List ℕ))
    (state : List ℕ) : List α :=
  (rows.zip keys).filterMap (fun rk => if rk.2 = state then some rk.1 else none)

/-- Embedding of the numpy masked assignment `k[idxs] = vals` for the
boolean mask `keys == state` (rowwise): masked positions consume the
values of `vals` in order, other positions keep their entry. -/
def maskedAssign : List ℚ → List (List ℕ) → List ℕ → List ℚ → List ℚ
  | [], _, _, _ => []
  | kv :: ks, [], _, _ => kv :: ks
  | kv :: ks, key :: keys, state, vals =>
    if key = state then vals.headD 0 :: maskedAssign ks keys state vals.tail
    else kv :: maskedAssign ks keys state vals

/-- Embedding of `ChainRuleKernel.__call__`: reject a non-`None`
`hyper_deriv`; compute `tau = Xi - Xj`, the per-row totals
`n_tot_j = sum(nj, axis=1)` and the combined multi-indices
`n_combined = ni + nj`; group the rows by the distinct combined
multi-indices and fill each group through `_compute_dk_dtau`;
finally scale by `params[0]^2 * (-1)^n_tot_j`. -/
def ChainRuleKernel.call (ck : ChainRuleKernel) : EvalFn :=
  fun Xi Xj ni nj hyper_deriv _symmetric =>
    if hyper_deriv ≠ none then .error .notImplemented
    else
      let tau := List.zipWith (List.zipWith (· - ·)) Xi Xj
      let n_tot_j := nj.map (·.sum)
      let n_combined := List.zipWith (List.zipWith (· + ·)) ni nj
      let n_combined_unique := unique_rows n_combined
      let k0 := List.replicate Xi.length (0 : ℚ)
      let k := n_combined_unique.foldl (fun k state =>
        maskedAssign k n_combined state
          (ck._compute_dk_dtau (selectRows tau n_combined state) state)) k0
      .ok (List.zipWith
        (fun ntj kv => ck.toKernel.params.headD 0 ^ 2 * (-1 : ℚ) ^ ntj * kv)
        n_tot_j k)

/-- State of `ArbitraryKernel`: the base `Kernel` container, the
user-supplied raw covariance function (`cov_func(Xi_row, Xj_row,
*params)`), the numerical-differentiation oracle
(`mpmath.chop(mpmath.diff(self._mask_cov_func, X_cat_row,
n=n_cat_state, singular=True))`, modelled as one opaque deterministic
function of the concatenated coordinate row and the derivative
orders), and the worker-pool size `num_proc`. -/
structure ArbitraryKernel where
  toKernel : Kernel
  cov_func : List ℚ → List ℚ → List ℚ → ℚ
  numdiff : List ℚ → List ℕ → ℚ
  num_proc : ℕ

/-- The indices whose key row equals `state`:
`scipy.where((n_cat == n_cat_state).all(axis=1))[0]`. -/
def idxsWhere (keys : List (List ℕ)) (state : List ℕ) : List ℕ :=
  (List.range keys.length).filter (fun i => decide (keys.getD i [] = state))

/-- Embedding of the numpy indexed assignment `k[idxs] = vals` for an
index list: each index receives the corresponding value, by
position. -/
def assignAt (k : List ℚ) (idxs : List ℕ) (vals : List ℚ) : List ℚ :=
  (idxs.zip vals).foldl (fun k iv => k.set iv.1 iv.2) k

/-- Embedding of `ArbitraryKernel.__call__`: reject a non-`None`
`hyper_deriv`; concatenate the derivative orders (`n_cat`) and
coordinates (`X_cat`) of each pair; group the rows by distinct
`n_cat` rows.  The all-zero group evaluates `cov_func` directly.  Any
other group runs the numerical-differentiation oracle on each of its
rows: fanned out over a worker pool (`pool.map`, results assigned
back by index) when `num_proc > 0` and the group has more than one
member, else serially one row at a time. -/
def ArbitraryKernel.call (ak : ArbitraryKernel) : EvalFn :=
  fun Xi Xj ni nj hyper_deriv _symmetric =>
    if hyper_deriv ≠ none then .error .notImplemented
    else
      let n_cat := List.zipWith (· ++ ·) ni nj
      let X_cat := List.zipWith (· ++ ·) Xi Xj
      let n_cat_unique := unique_rows n_cat
      let k0 := List.replicate Xi.length (0 : ℚ)
      .ok (n_cat_unique.foldl (fun k state =>
        let idxs := idxsWhere n_cat state
        if state.all (· == 0) then
          assignAt k idxs (idxs.map (fun idx =>
            ak.cov_func (Xi.getD idx []) (Xj.getD idx []) ak.toKernel.params))
        else if 0 < ak.num_proc ∧ 1 < idxs.length then
          assignAt k idxs ((idxs.map (fun idx => X_cat.getD idx [])).map
            (fun row => ak.numdiff row state))
        else
          idxs.foldl (fun k idx =>
            k.set idx (ak.numdiff (X_cat.getD idx []) state)) k) k0)

/-! ## Derived views and invariant predicates -/

/-- The entries of `l` selected by the mask value `b`
(`l[mask == b]`); `selectMask l mask false` are the free positions,
`selectMask l mask true` the fixed ones. -/
def selectMask {α : Type} (l : List α) (mask : List Bool) (b : Bool) : List α :=
  (l.zip mask).filterMap (fun pm => if pm.2 = b then some pm.1 else none)

/-- Per-row reading of `ChainRuleKernel._compute_dk_dtau`: the value
the vectorised source computes for one `tau` row sharing the
multi-index `n`. -/
def dkRow (ck : ChainRuleKernel) (n : List ℕ) (row : List ℚ) : ℚ :=
  if derivPattern n = [] then ck.compute_k row
  else
    ((generate_set_partitions (derivPattern n)).map
      (ck._compute_dk_dtau_on_partition row)).sum

/-- Well-formedness of a `Kernel` container: the mask and the bounds
have the length of the parameter vector (guaranteed by the length
validation in `Kernel.__init__`). -/
def KernelWFB (k : Kernel) : Bool :=
  decide (k.params.length = k.fixed_params.length) &&
  decide (k.param_bounds.length = k.fixed_params.length)

/-- Propositional form of `KernelWFB`. -/
def KernelWF (k : Kernel) : Prop := KernelWFB k = true

/-- Well-formedness of every kernel in a tree. -/
def TreeWFB : KernelTree → Bool
  | .leaf k => KernelWFB k
  | .node _ t1 t2 base => KernelWFB base && TreeWFB t1 && TreeWFB t2

/-- Propositional form of `TreeWFB`. -/
def TreeWF (t : KernelTree) : Prop := TreeWFB t = true

/-- The combinator invariant of the spec (§3): at every combinator
node, `params`, `fixed_params`, `param_bounds`, `hyperpriors` and
`is_log` equal the concatenation of the two children's corresponding
attributes, in `k1`-then-`k2` order. -/
def ConcatInvB : KernelTree → Bool
  | .leaf _ => true
  | .node _ t1 t2 base =>
    decide (base.params = t1.asKernel.params ++ t2.asKernel.params) &&
    decide (base.fixed_params = t1.asKernel.fixed_params ++ t2.asKernel.fixed_params) &&
    decide (base.param_bounds = t1.asKernel.param_bounds ++ t2.asKernel.param_bounds) &&
    decide (base.hyperpriors = t1.asKernel.hyperpriors ++ t2.asKernel.hyperpriors) &&
    decide (base.is_log = t1.asKernel.is_log ++ t2.asKernel.is_log) &&
    ConcatInvB t1 && ConcatInvB t2

/-- Propositional form of `ConcatInvB`. -/
def ConcatInv (t : KernelTree) : Prop := ConcatInvB t = true

/-- The weaker invariant ignoring `params`: the four immutable
attribute lists are concatenations at every combinator node. -/
def ConcatAttrsB : KernelTree → Bool
  | .leaf _ => true
  | .node _ t1 t2 base =>
    decide (base.fixed_params = t1.asKernel.fixed_params ++ t2.asKernel.fixed_params) &&
    decide (base.param_bounds = t1.asKernel.param_bounds ++ t2.asKernel.param_bounds) &&
    decide (base.hyperpriors = t1.asKernel.hyperpriors ++ t2.asKernel.hyperpriors) &&
    decide (base.is_log = t1.asKernel.is_log ++ t2.asKernel.is_log) &&
    ConcatAttrsB t1 && ConcatAttrsB t2

/-- Propositional form of `ConcatAttrsB`. -/
def ConcatAttrs (t : KernelTree) : Prop := ConcatAttrsB t = true

/-- No kernel anywhere in the tree enforces bounds, so no
`set_hyperparams` call ever clamps. -/
def NoEnforceB : KernelTree → Bool
  | .leaf k => !k.enforce_bounds
  | .node _ t1 t2 _ => NoEnforceB t1 && NoEnforceB t2

/-- Propositional form of `NoEnforceB`. -/
def NoEnforce (t : KernelTree) : Prop := NoEnforceB t = true

instance {ε α : Type} [DecidableEq ε] [DecidableEq α] : DecidableEq (Except ε α) :=
  fun x y =>
    match x, y with
    | .error a, .error b =>
      if h : a = b then .isTrue (by rw [h])
      else .isFalse (fun hc => by cases hc; exact h rfl)
    | .ok a, .ok b =>
      if h : a = b then .isTrue (by rw [h])
      else .isFalse (fun hc => by cases hc; exact h rfl)
    | .error _, .ok _ => .isFalse (fun hc => by cases hc)
    | .ok _, .error _ => .isFalse (fun hc => by cases hc)

instance (k : Kernel) : Decidable (KernelWF k) :=
  inferInstanceAs (Decidable (KernelWFB k = true))

instance (t : KernelTree) : Decidable (TreeWF t) :=
  inferInstanceAs (Decidable (TreeWFB t = true))

instance (t : KernelTree) : Decidable (ConcatInv t) :=
  inferInstanceAs (Decidable (ConcatInvB t = true))

instance (t : KernelTree) : Decidable (ConcatAttrs t) :=
  inferInstanceAs (Decidable (ConcatAttrsB t = true))

instance (t : KernelTree) : Decidable (NoEnforce t) :=
  inferInstanceAs (Decidable (NoEnforceB t = true))

/-! ## Reference definitions for restricted-growth strings

These are not translations of the source: they are the mathematical
reference objects of the spec (§3 "Partition", §4.4), against which
the output of `generate_set_partition_strings` is measured. -/

/-- Validity of a restricted-growth-string continuation: with `m` the
bound for the next position (`1 + max` of the preceding entries, `0`
for the first position), every entry may be at most the current
bound, which then grows to `max m (x + 1)`. -/
def validFrom (m : ℕ) : List ℕ → Bool
  | [] => true
  | x :: xs => decide (x ≤ m) && validFrom (max m (x + 1)) xs

/-- All valid continuations of the given length from bound `m`, in
lexicographic order. -/
def rgsAux : ℕ → ℕ → List (List ℕ)
  | 0, _ => [[]]
  | len + 1, m =>
    (List.range (m + 1)).flatMap (fun d => (rgsAux len (max m (d + 1))).map (d :: ·))

/-- All restricted-growth strings of length `n`, in lexicographic
order: the canonical encodings of the set partitions of
`{0, …, n-1}`. -/
def allRGSStrings (n : ℕ) : List (List ℕ) := rgsAux n 0

/-- The `n`-th Bell number: the number of set partitions of an
`n`-element set, counted through their canonical
restricted-growth-string encodings. -/
def bellNumber (n : ℕ) : ℕ := (allRGSStrings n).length

/-- Strict lexicographic comparison of digit strings (entries compared
by `<`, a shorter string losing to any extension of it). -/
def lexLt : List ℕ → List ℕ → Bool
  | _, [] => false
  | [], _ :: _ => true
  | x :: xs, y :: ys => decide (x < y) || (decide (x = y) && lexLt xs ys)

/-- The growth bound of a restricted-growth string at position `i`:
one more than the maximum of the first `i` entries (`0` when
`i = 0`).  Position `i` of a restricted-growth string may hold any
value up to this bound; `b[i]` of Algorithm H equals it for
`i ≥ 1`. -/
def grb (a : List ℕ) (i : ℕ) : ℕ := ((a.take i).map (· + 1)).foldr max 0

/-- Invariant of the Algorithm H loop state `(a, b)` for sets of size
`n`: both arrays have length `n`, `a` is a restricted-growth string,
`b[0]` stays at its initial value `1`, and `b[i]` is the growth bound
of `a` at every later position. -/
def HInv (n : ℕ) (a b : List ℕ) : Prop :=
  a.length = n ∧ b.length = n ∧ validFrom 0 a = true ∧
  b.getD 0 0 = 1 ∧ ∀ i, 1 ≤ i → i < n → b.getD i 0 = grb a i

/-! ## Concrete instances used by witnesses and counterexamples -/

/-- A one-dimensional kernel with one free bounded parameter that
enforces its bounds. -/
def cexK1 : Kernel :=
  { num_dim := 1, num_params := 1, params := [1], fixed_params := [false]
    param_bounds := [(0, 10)], enforce_bounds := true
    hyperpriors := [0], is_log := [true], potentials := [] }

/-- A one-dimensional kernel with one free parameter and no bound
enforcement. -/
def cexK2 : Kernel :=
  { num_dim := 1, num_params := 1, params := [1], fixed_params := [false]
    param_bounds := [(0, 10)], enforce_bounds := false
    hyperpriors := [1], is_log := [true], potentials := [] }

/-- The combinator `cexK1 + cexK2` as built by `BinaryKernel.__init__`. -/
def cexTree : KernelTree :=
  .node .sum (.leaf cexK1) (.leaf cexK2)
    { num_dim := 1, num_params := 2, params := [1, 1]
      fixed_params := [false, false], param_bounds := [(0, 10), (0, 10)]
      enforce_bounds := false, hyperpriors := [0, 1]
      is_log := [true, true], potentials := [] }

/-- A tiny two-parameter kernel used by witnesses: one fixed and one
free parameter, bounds enforced. -/
def witK : Kernel :=
  { num_dim := 1, num_params := 2, params := [3, 4], fixed_params := [true, false]
    param_bounds := [(0, 10), (2, 6)], enforce_bounds := true
    hyperpriors := [0, 1], is_log := [true, true], potentials := [] }

/-- A concrete chain-rule kernel over one dimension with simple
polynomial primitives, used by witnesses. -/
def witCK : ChainRuleKernel :=
  { toKernel :=
      { num_dim := 1, num_params := 2, params := [2, 1], fixed_params := [false, false]
        param_bounds := [(0, 10), (0, 10)], enforce_bounds := false
        hyperpriors := [0, 1], is_log := [true, true], potentials := [] }
    compute_k := fun row => row.sum
    compute_dk_dy := fun y m => y + m
    compute_dy_dtau := fun row b r2l2 => row.sum + b.length + r2l2 }

/-- The combinator `cexK2 * cexK2` as built by `BinaryKernel.__init__`
(no bound enforcement anywhere). -/
def witTree : KernelTree :=
  .node .prod (.leaf cexK2) (.leaf cexK2)
    { num_dim := 1, num_params := 2, params := [1, 1]
      fixed_params := [false, false], param_bounds := [(0, 10), (0, 10)]
      enforce_bounds := false, hyperpriors := [1, 1]
      is_log := [true, true], potentials := [] }

/-- A concrete arbitrary (numerically differentiated) kernel body,
parameterised by the worker-pool size, used by witnesses. -/
def witAK (np : ℕ) : ArbitraryKernel :=
  { toKernel :=
      { num_dim := 1, num_params := 1, params := [2], fixed_params := [false]
        param_bounds := [(0, 10)], enforce_bounds := false
        hyperpriors := [0], is_log := [true], potentials := [] }
    cov_func := fun xi xj ps => xi.sum - xj.sum + ps.sum
    numdiff := fun row n => row.sum + n.sum
    num_proc := np }

/-! ## General lemmas about the embedded utilities -/

theorem foldl_dedup_mem {α : Type} [DecidableEq α] :
    ∀ (arr acc : List (List α)) (r : List α),
      (r ∈ arr.foldl (fun acc r => if r ∈ acc then acc else acc ++ [r]) acc) ↔
        r ∈ acc ∨ r ∈ arr := by
  intro arr
  induction arr with
  | nil => simp
  | cons a arr ih =>
    intro acc r
    simp only [List.foldl_cons]
    by_cases h : a ∈ acc
    · rw [if_pos h, ih]
      constructor
      · rintro (h1 | h1)
        · exact Or.inl h1
        · exact Or.inr (List.mem_cons_of_mem _ h1)
      · rintro (h1 | h1)
        · exact Or.inl h1
        · rcases List.mem_cons.mp h1 with rfl | h1
          · exact Or.inl h
          · exact Or.inr h1
    · rw [if_neg h, ih]
      simp only [List.mem_append, List.mem_cons, List.mem_singleton]
      tauto

theorem mem_unique_rows {α : Type} [DecidableEq α] (arr : List (List α)) (r : List α) :
    r ∈ unique_rows arr ↔ r ∈ arr := by
  unfold unique_rows
  rw [foldl_dedup_mem]
  simp

theorem foldl_dedup_nodup {α : Type} [DecidableEq α] :
    ∀ (arr acc : List (List α)), acc.Nodup →
      (arr.foldl (fun acc r => if r ∈ acc then acc else acc ++ [r]) acc).Nodup := by
  intro arr
  induction arr with
  | nil => intro acc h; simpa using h
  | cons a arr ih =>
    intro acc h
    simp only [List.foldl_cons]
    by_cases ha : a ∈ acc
    · rw [if_pos ha]; exact ih acc h
    · rw [if_neg ha]
      refine ih _ ?_
      rw [List.nodup_append]
      refine ⟨h, List.nodup_singleton a, ?_⟩
      intro x hx
      simp only [List.mem_singleton]
      intro hxa
      exact ha (hxa ▸ hx)

theorem nodup_unique_rows {α : Type} [DecidableEq α] (arr : List (List α)) :
    (unique_rows arr).Nodup :=
  foldl_dedup_nodup arr [] List.nodup_nil

theorem maskedWrite_length :
    ∀ (p : List ℚ) (f : List Bool) (vals : List ℚ),
      (maskedWrite p f vals).length = p.length := by
  intro p
  induction p with
  | nil => intro f vals; rfl
  | cons x ps ih =>
    intro f vals
    cases f with
    | nil => rfl
    | cons fb fs =>
      cases fb with
      | true => simp [maskedWrite, ih]
      | false =>
        cases vals with
        | nil => simp [maskedWrite, ih]
        | cons v vs => simp [maskedWrite, ih]

theorem selectMask_cons {α : Type} (x : α) (fb : Bool) (ps : List α) (fs : List Bool) (b : Bool) :
    selectMask (x :: ps) (fb :: fs) b =
      (if fb = b then [x] else []) ++ selectMask ps fs b := by
  by_cases h : fb = b <;> simp [selectMask, h]

theorem selectMask_maskedWrite_true :
    ∀ (p : List ℚ) (f : List Bool) (vals : List ℚ),
      selectMask (maskedWrite p f vals) f true = selectMask p f true := by
  intro p
  induction p with
  | nil => intro f vals; rfl
  | cons x ps ih =>
    intro f vals
    cases f with
    | nil => rfl
    | cons fb fs =>
      cases fb with
      | true => simp [maskedWrite, selectMask_cons, ih]
      | false =>
        cases vals with
        | nil => simp [maskedWrite, selectMask_cons, ih]
        | cons v vs => simp [maskedWrite, selectMask_cons, ih]

theorem selectMask_maskedWrite_false :
    ∀ (p : List ℚ) (f : List Bool) (vals : List ℚ),
      p.length = f.length → vals.length = f.count false →
      selectMask (maskedWrite p f vals) f false = vals := by
  intro p
  induction p with
  | nil =>
    intro f vals hl hv
    cases f with
    | nil =>
      cases vals with
      | nil => rfl
      | cons v vs => simp at hv
    | cons fb fs => simp at hl
  | cons x ps ih =>
    intro f vals hl hv
    cases f with
    | nil => simp at hl
    | cons fb fs =>
      cases fb with
      | true =>
        have hv' : vals.length = fs.count false := by
          simpa [List.count_cons] using hv
        simp [maskedWrite, selectMask_cons, ih fs vals (by simpa using hl) hv']
      | false =>
        cases vals with
        | nil =>
          exfalso
          simp [List.count_cons] at hv
        | cons v vs =>
          have hv' : vs.length = fs.count false := by
            simp [List.count_cons] at hv
            omega
          simp [maskedWrite, selectMask_cons, ih fs vs (by simpa using hl) hv']

theorem free_params_eq_selectMask (k : Kernel) :
    k.free_params = selectMask k.params k.fixed_params false := by
  unfold Kernel.free_params selectMask
  congr 1
  funext pf
  cases h : pf.2 <;> simp [h]

theorem selectMask_length_false {α : Type} :
    ∀ (p : List α) (f : List Bool), p.length = f.length →
      (selectMask p f false).length = f.count false := by
  intro p
  induction p with
  | nil =>
    intro f hl
    cases f with
    | nil => rfl
    | cons fb fs => simp at hl
  | cons x ps ih =>
    intro f hl
    cases f with
    | nil => simp at hl
    | cons fb fs =>
      cases fb with
      | true => simp [selectMask_cons, ih fs (by simpa using hl), List.count_cons]
      | false => simp [selectMask_cons, ih fs (by simpa using hl), List.count_cons]

theorem free_params_length (k : Kernel)
    (h : k.params.length = k.fixed_params.length) :
    k.free_params.length = k.fixed_params.count false := by
  rw [free_params_eq_selectMask]
  exact selectMask_length_false _ _ h

theorem free_param_bounds_eq_selectMask (k : Kernel) :
    k.free_param_bounds = selectMask k.param_bounds k.fixed_params false := by
  unfold Kernel.free_param_bounds selectMask
  congr 1
  funext bf
  cases h : bf.2 <;> simp [h]

theorem free_param_bounds_length (k : Kernel)
    (h : k.param_bounds.length = k.fixed_params.length) :
    k.free_param_bounds.length = k.fixed_params.count false := by
  rw [free_param_bounds_eq_selectMask]
  exact selectMask_length_false _ _ h

theorem selectMask_append {α : Type} :
    ∀ (p1 : List α) (f1 : List Bool) (p2 : List α) (f2 : List Bool) (b : Bool),
      p1.length = f1.length →
      selectMask (p1 ++ p2) (f1 ++ f2) b = selectMask p1 f1 b ++ selectMask p2 f2 b := by
  intro p1
  induction p1 with
  | nil =>
    intro f1 p2 f2 b h
    cases f1 with
    | nil => rfl
    | cons fb fs => simp at h
  | cons x ps ih =>
    intro f1 p2 f2 b h
    cases f1 with
    | nil => simp at h
    | cons fb fs =>
      simp only [List.cons_append]
      rw [selectMask_cons, selectMask_cons, ih fs p2 f2 b (by simpa using h),
        List.append_assoc]

theorem maskedWrite_append :
    ∀ (p1 : List ℚ) (f1 : List Bool) (p2 : List ℚ) (f2 : List Bool) (vals : List ℚ),
      p1.length = f1.length →
      maskedWrite (p1 ++ p2) (f1 ++ f2) vals =
        maskedWrite p1 f1 (vals.take (f1.count false)) ++
          maskedWrite p2 f2 (vals.drop (f1.count false)) := by
  intro p1
  induction p1 with
  | nil =>
    intro f1 p2 f2 vals h
    cases f1 with
    | nil => simp [maskedWrite]
    | cons fb fs => simp at h
  | cons x ps ih =>
    intro f1 p2 f2 vals h
    cases f1 with
    | nil => simp at h
    | cons fb fs =>
      cases fb with
      | true =>
        simp only [List.cons_append, maskedWrite, if_pos, List.append_eq]
        rw [ih fs p2 f2 vals (by simpa using h)]
        simp [List.count_cons]
      | false =>
        cases vals with
        | nil =>
          simp only [List.cons_append, maskedWrite, Bool.false_eq_true, if_false,
            List.take_nil, List.drop_nil, List.append_eq]
          rw [ih fs p2 f2 [] (by simpa using h)]
          simp
        | cons v vs =>
          simp only [List.cons_append, maskedWrite, Bool.false_eq_true, if_false,
            List.append_eq]
          rw [ih fs p2 f2 vs (by simpa using h)]
          simp [List.count_cons]

theorem derivPattern_eq_nil_iff (n : List ℕ) :
    derivPattern n = [] ↔ ∀ x ∈ n, x = 0 := by
  unfold derivPattern
  rw [List.flatMap_eq_nil_iff]
  constructor
  · intro h x hx
    rcases List.mem_iff_getElem.mp hx with ⟨i, hi, rfl⟩
    have := h i (List.mem_range.mpr hi)
    rw [List.replicate_eq_nil_iff] at this
    rw [List.getD_eq_getElem _ _ hi] at this
    exact this
  · intro h idx hidx
    rw [List.replicate_eq_nil_iff]
    rw [List.mem_range] at hidx
    rw [List.getD_eq_getElem _ _ hidx]
    exact h _ (List.getElem_mem hidx)

theorem foldl_mul_eq {α : Type} (g : α → ℚ) :
    ∀ (p : List α) (a : ℚ),
      p.foldl (fun acc b => acc * g b) a = a * (p.map g).prod := by
  intro p
  induction p with
  | nil => intro a; simp
  | cons b bs ih => intro a; simp [ih, mul_assoc]

theorem list_range_map_sum (N : ℕ) (f : ℕ → ℚ) :
    ((List.range N).map f).sum = ∑ i ∈ Finset.range N, f i := by
  induction N with
  | zero => simp
  | succ n ih =>
    rw [List.range_succ, Finset.sum_range_succ, List.map_append, List.sum_append]
    simp [ih]

theorem incomplete_bell_poly_congr :
    ∀ (k n : ℕ) (x y : ℕ → ℚ), (∀ m, m + k ≤ n → x m = y m) →
      incomplete_bell_poly n k x = incomplete_bell_poly n k y := by
  intro k
  induction k with
  | zero => intro n x y _; rfl
  | succ kk ih =>
    intro n x y h
    by_cases hn : n = 0
    · subst hn; rfl
    · simp only [incomplete_bell_poly, if_neg hn]
      congr 1
      refine List.map_congr_left ?_
      intro m hm
      rw [List.mem_range] at hm
      have hx : x m = y m := h m (by omega)
      have hrec : incomplete_bell_poly (n - (m + 1)) kk x =
          incomplete_bell_poly (n - (m + 1)) kk y := by
        refine ih (n - (m + 1)) x y ?_
        intro m' hm'
        exact h m' (by omega)
      rw [hx, hrec]

/-- C3: base cases, recurrence and argument-handling of
`incomplete_bell_poly`: the value is a vector of ones for
`n = k = 0`, zeros for `n ≥ 1, k = 0` and for `n = 0, k ≥ 1`; for
`n, k ≥ 1` it satisfies the Bell recurrence
`B(n,k) = Σ_{m=1}^{n-k+1} x_m C(n-1,m-1) B(n-m,k-1)`; the result
depends only on the first `n - k + 1` columns of `x` (any further
columns are silently ignored); and the batch form processes the `p`
argument rows independently. -/
theorem C3_incomplete_bell_poly (n k : ℕ) (x y : ℕ → ℚ) (xs : List (ℕ → ℚ)) :
    incomplete_bell_poly 0 0 x = 1 ∧
    (1 ≤ n → incomplete_bell_poly n 0 x = 0) ∧
    (1 ≤ k → incomplete_bell_poly 0 k x = 0) ∧
    (1 ≤ n → 1 ≤ k →
      incomplete_bell_poly n k x =
        ∑ m ∈ Finset.Icc 1 (n + 1 - k),
          x (m - 1) * (Nat.choose (n - 1) (m - 1) : ℚ) *
            incomplete_bell_poly (n - m) (k - 1) x) ∧
    ((∀ m, m + k ≤ n → x m = y m) →
      incomplete_bell_poly n k x = incomplete_bell_poly n k y) ∧
    incomplete_bell_poly_rows n k xs = xs.map (incomplete_bell_poly n k) := by
  refine ⟨rfl, ?_, ?_, ?_, incomplete_bell_poly_congr k n x y, rfl⟩
  · intro hn
    simp only [incomplete_bell_poly]
    rw [if_neg (by omega)]
  · intro hk
    cases k with
    | zero => omega
    | succ kk => simp [incomplete_bell_poly]
  · intro hn hk
    cases k with
    | zero => omega
    | succ kk =>
      simp only [incomplete_bell_poly, if_neg (by omega : ¬ n = 0)]
      rw [list_range_map_sum, ← Nat.Ico_succ_right, Finset.sum_Ico_eq_sum_range]
      simp only [Nat.add_sub_cancel]
      refine Finset.sum_congr rfl ?_
      intro i _
      rw [show 1 + i - 1 = i by omega, show n - (1 + i) = n - (i + 1) by omega]

/-- Witness for C3 at concrete inputs. -/
theorem C3_incomplete_bell_poly_witness :
    (incomplete_bell_poly 3 0 (fun m : ℕ => (m + 1 : ℚ)) = 0) ∧
    (incomplete_bell_poly 0 2 (fun m : ℕ => (m + 1 : ℚ)) = 0) ∧
    (incomplete_bell_poly 3 2 (fun m : ℕ => (m + 1 : ℚ)) =
      ∑ m ∈ Finset.Icc 1 (3 + 1 - 2),
        (fun m : ℕ => (m + 1 : ℚ)) (m - 1) * (Nat.choose (3 - 1) (m - 1) : ℚ) *
          incomplete_bell_poly (3 - m) (2 - 1) (fun m : ℕ => (m + 1 : ℚ))) ∧
    (incomplete_bell_poly 2 1 (fun m : ℕ => (m + 1 : ℚ)) =
      incomplete_bell_poly 2 1 (fun m : ℕ => if m ≤ 1 then (m + 1 : ℚ) else 99)) :=
  ⟨(C3_incomplete_bell_poly 3 0 (fun m : ℕ => (m + 1 : ℚ)) (fun m : ℕ => (m + 1 : ℚ)) []).2.1
      (by norm_num),
   (C3_incomplete_bell_poly 0 2 (fun m : ℕ => (m + 1 : ℚ)) (fun m : ℕ => (m + 1 : ℚ)) []).2.2.1
      (by norm_num),
   (C3_incomplete_bell_poly 3 2 (fun m : ℕ => (m + 1 : ℚ)) (fun m : ℕ => (m + 1 : ℚ)) []).2.2.2.1
      (by norm_num) (by norm_num),
   (C3_incomplete_bell_poly 2 1 (fun m : ℕ => (m + 1 : ℚ))
      (fun m : ℕ => if m ≤ 1 then (m + 1 : ℚ) else 99) []).2.2.2.2.1
      (fun m hm => by rw [if_pos (by omega)])⟩

/-- C5: the abstract base `evaluate` always fails with
`NotImplementedError`; `SumKernel` and `ChainRuleKernel` fail with
`NotImplementedError` whenever `hyper_deriv` is not `None`;
`ProductKernel` performs no such check and forwards all arguments,
`hyper_deriv` included, to both children. -/
theorem C5_not_implemented_paths :
    (∀ (k : Kernel) (Xi Xj : List (List ℚ)) (ni nj : List (List ℕ))
        (hd : Option ℕ) (sym : Bool),
       k.call Xi Xj ni nj hd sym = .error .notImplemented) ∧
    (∀ (f1 f2 : EvalFn) (Xi Xj : List (List ℚ)) (ni nj : List (List ℕ))
        (hd : Option ℕ) (sym : Bool), hd ≠ none →
       SumKernel.call f1 f2 Xi Xj ni nj hd sym = .error .notImplemented) ∧
    (∀ (ck : ChainRuleKernel) (Xi Xj : List (List ℚ)) (ni nj : List (List ℕ))
        (hd : Option ℕ) (sym : Bool), hd ≠ none →
       ck.call Xi Xj ni nj hd sym = .error .notImplemented) ∧
    (∀ (f1 f2 : EvalFn) (Xi Xj : List (List ℚ)) (ni nj : List (List ℕ))
        (hd : Option ℕ) (sym : Bool),
       ProductKernel.call f1 f2 Xi Xj ni nj hd sym =
         (f1 Xi Xj ni nj hd sym).bind fun K1 =>
           (f2 Xi Xj ni nj hd sym).map fun K2 => List.zipWith (· * ·) K1 K2) := by
  refine ⟨fun _ _ _ _ _ _ _ => rfl, ?_, ?_, fun _ _ _ _ _ _ _ _ => rfl⟩
  · intro f1 f2 Xi Xj ni nj hd sym h
    simp only [SumKernel.call, if_pos h]
  · intro ck Xi Xj ni nj hd sym h
    simp only [ChainRuleKernel.call, if_pos h]

/-- Witness for C5 at concrete inputs. -/
theorem C5_not_implemented_paths_witness :
    witK.call [] [] [] [] (some 0) false = .error .notImplemented ∧
    SumKernel.call (fun _ _ _ _ _ _ => .ok []) (fun _ _ _ _ _ _ => .ok [])
      [] [] [] [] (some 0) false = .error .notImplemented ∧
    witCK.call [] [] [] [] (some 0) false = .error .notImplemented ∧
    ProductKernel.call (fun _ _ _ _ _ _ => .ok [3]) (fun _ _ _ _ _ _ => .ok [5])
      [] [] [] [] (some 0) false =
      ((Except.ok [3] : Except GPError (List ℚ)).bind fun K1 =>
        (Except.ok [5] : Except GPError (List ℚ)).map fun K2 =>
          List.zipWith (· * ·) K1 K2) :=
  ⟨C5_not_implemented_paths.1 witK [] [] [] [] (some 0) false,
   C5_not_implemented_paths.2.1 _ _ [] [] [] [] (some 0) false (by simp),
   C5_not_implemented_paths.2.2.1 witCK [] [] [] [] (some 0) false (by simp),
   C5_not_implemented_paths.2.2.2 _ _ [] [] [] [] (some 0) false⟩

/-- C8: with an all-zero combined multi-index, the chain-rule
derivative evaluation `_compute_dk_dtau` at `tau = Xi - Xj` is the
base covariance of each `tau` row (the empty derivative pattern
short-circuits before any partition enumeration; note that summing
over `generate_set_partitions []`, which is empty, would instead
give zero). -/
theorem C8_zero_combined_index (ck : ChainRuleKernel) (Xi Xj : List (List ℚ))
    (n : List ℕ) (h : ∀ x ∈ n, x = 0) :
    ck._compute_dk_dtau (List.zipWith (List.zipWith (· - ·)) Xi Xj) n =
      (List.zipWith (List.zipWith (· - ·)) Xi Xj).map ck.compute_k := by
  simp only [ChainRuleKernel._compute_dk_dtau]
  rw [if_pos ((derivPattern_eq_nil_iff n).mpr h)]

/-- Witness for C8 at concrete inputs. -/
theorem C8_zero_combined_index_witness :
    witCK._compute_dk_dtau (List.zipWith (List.zipWith (· - ·)) [[3]] [[1]]) [0] =
      (List.zipWith (List.zipWith (· - ·)) [[3]] [[1]]).map witCK.compute_k :=
  C8_zero_combined_index witCK [[3]] [[1]] [0] (by decide)

/-- C9: `unique_rows` returns exactly the distinct rows of its input
under exact elementwise equality — every returned row occurs in the
input, every input row equals some returned row, and no two returned
rows are equal — and in particular `[[0,0],[1,0],[0,0]]` yields
exactly the two rows `[0,0]` and `[1,0]`. -/
theorem C9_unique_rows (arr : List (List ℤ)) :
    (∀ r ∈ unique_rows arr, r ∈ arr) ∧
    (∀ r ∈ arr, r ∈ unique_rows arr) ∧
    (unique_rows arr).Nodup ∧
    unique_rows [([0, 0] : List ℤ), [1, 0], [0, 0]] = [[0, 0], [1, 0]] :=
  ⟨fun r hr => (mem_unique_rows arr r).mp hr,
   fun r hr => (mem_unique_rows arr r).mpr hr,
   nodup_unique_rows arr, by decide⟩

/-- Witness for C9 at concrete inputs. -/
theorem C9_unique_rows_witness :
    ([5] : List ℤ) ∈ unique_rows [[5], [5]] ∧
    (unique_rows [([5] : List ℤ), [5]]).Nodup :=
  ⟨(C9_unique_rows [[5], [5]]).2.1 [5] (by decide),
   (C9_unique_rows [[5], [5]]).2.2.1⟩

/-- C6: with the correct incoming length, `set_hyperparams` writes the
incoming values (each first clamped to its inclusive bounds when
`enforce_bounds` is set) into the free positions of `params` in
declaration order, leaving the fixed positions and every other
attribute unchanged; any other length fails with a `ValueError` and
no kernel state is produced.  `clampToBounds` moves an out-of-range
value to the violated bound and is the identity inside the bounds. -/
theorem C6_set_hyperparams (k : Kernel) (new_params : List ℚ)
    (hp : k.params.length = k.fixed_params.length)
    (hb : k.param_bounds.length = k.fixed_params.length) :
    (new_params.length = k.free_params.length →
      ∃ k', k.set_hyperparams new_params = .ok k' ∧
        k'.params.length = k.params.length ∧
        selectMask k'.params k'.fixed_params true =
          selectMask k.params k.fixed_params true ∧
        selectMask k'.params k'.fixed_params false =
          (if k.enforce_bounds then
            List.zipWith (fun v b => clampToBounds b v) new_params k.free_param_bounds
          else new_params) ∧
        k'.fixed_params = k.fixed_params ∧
        k'.param_bounds = k.param_bounds ∧
        k'.enforce_bounds = k.enforce_bounds ∧
        k'.hyperpriors = k.hyperpriors ∧
        k'.is_log = k.is_log ∧
        k'.num_dim = k.num_dim) ∧
    (new_params.length ≠ k.free_params.length →
      k.set_hyperparams new_params =
        .error (.valueError "Length of new_params must match the free parameter count!")) ∧
    (∀ (b : ℚ × ℚ) (v : ℚ), b.1 ≤ v → v ≤ b.2 → clampToBounds b v = v) ∧
    (∀ (b : ℚ × ℚ) (v : ℚ), v < b.1 → clampToBounds b v = b.1) ∧
    (∀ (b : ℚ × ℚ) (v : ℚ), ¬ v < b.1 → b.2 < v → clampToBounds b v = b.2) := by
  refine ⟨?_, ?_, ?_, ?_, ?_⟩
  · intro hlen
    refine ⟨_, by unfold Kernel.set_hyperparams; rw [if_pos hlen], ?_⟩
    have hcount : k.free_params.length = k.fixed_params.count false :=
      free_params_length k hp
    have hvals : (if k.enforce_bounds then
        List.zipWith (fun v b => clampToBounds b v) new_params k.free_param_bounds
        else new_params).length = k.fixed_params.count false := by
      by_cases he : k.enforce_bounds
      · rw [if_pos he, List.length_zipWith, hlen, hcount,
          free_param_bounds_length k hb]
        exact Nat.min_self _
      · rw [if_neg he, hlen, hcount]
    refine ⟨maskedWrite_length _ _ _, selectMask_maskedWrite_true _ _ _,
      selectMask_maskedWrite_false _ _ _ hp hvals, rfl, rfl, rfl, rfl, rfl, rfl⟩
  · intro hne
    unfold Kernel.set_hyperparams
    rw [if_neg hne]
  · intro b v h1 h2
    unfold clampToBounds
    rw [if_neg (by exact not_lt.mpr h1), if_neg (by exact not_lt.mpr h2)]
  · intro b v h1
    unfold clampToBounds
    rw [if_pos h1]
  · intro b v h1 h2
    unfold clampToBounds
    rw [if_neg h1, if_pos h2]

/-- Witness for C6 at a concrete kernel: `witK` has one fixed and one
free parameter, enforces bounds `(2, 6)` on the free one, and an
incoming `10` is clamped to `6`. -/
theorem C6_set_hyperparams_witness :
    (∃ k', witK.set_hyperparams [10] = .ok k' ∧
      k'.params.length = witK.params.length ∧
      selectMask k'.params k'.fixed_params true =
        selectMask witK.params witK.fixed_params true ∧
      selectMask k'.params k'.fixed_params false =
        (if witK.enforce_bounds then
          List.zipWith (fun v b => clampToBounds b v) [10] witK.free_param_bounds
        else [10]) ∧
      k'.fixed_params = witK.fixed_params ∧
      k'.param_bounds = witK.param_bounds ∧
      k'.enforce_bounds = witK.enforce_bounds ∧
      k'.hyperpriors = witK.hyperpriors ∧
      k'.is_log = witK.is_log ∧
      k'.num_dim = witK.num_dim) ∧
    witK.set_hyperparams [1, 2] =
      .error (.valueError "Length of new_params must match the free parameter count!") ∧
    clampToBounds (2, 6) 10 = 6 :=
  ⟨(C6_set_hyperparams witK [10] (by decide) (by decide)).1 (by decide),
   (C6_set_hyperparams witK [1, 2] (by decide) (by decide)).2.1 (by decide),
   by
    have h := (C6_set_hyperparams witK [10] (by decide) (by decide)).2.2.2.2
      (2, 6) 10 (by norm_num) (by norm_num)
    simpa using h⟩

/-- C7: a combinator's `set_hyperparams` with an incoming vector of
the combinator's total free-parameter length splits it at the
boundary `count(not k1.fixed_params)` — which equals `k1`'s free
parameter count — delegating the first segment to `k1` and the
remainder to `k2` (after writing the raw vector into its own free
slots); under the concatenation invariant the total free count is
the sum of the children's; any other incoming length fails with a
`ValueError`. -/
theorem C7_binary_split (op : BinOp) (t1 t2 : KernelTree) (base : Kernel)
    (new_params : List ℚ)
    (h1 : t1.asKernel.params.length = t1.asKernel.fixed_params.length)
    (hcp : base.params = t1.asKernel.params ++ t2.asKernel.params)
    (hcf : base.fixed_params = t1.asKernel.fixed_params ++ t2.asKernel.fixed_params) :
    (new_params.length = base.free_params.length →
      (KernelTree.node op t1 t2 base).set_hyperparams new_params =
        match t1.set_hyperparams
            (new_params.take (t1.asKernel.fixed_params.count false)) with
        | .error e => .error e
        | .ok t1' =>
          match t2.set_hyperparams
              (new_params.drop (t1.asKernel.fixed_params.count false)) with
          | .error e => .error e
          | .ok t2' => .ok (.node op t1' t2'
              { base with
                params := maskedWrite base.params base.fixed_params new_params })) ∧
    t1.asKernel.fixed_params.count false = t1.asKernel.free_params.length ∧
    base.free_params.length =
      t1.asKernel.free_params.length + t2.asKernel.free_params.length ∧
    (new_params.length ≠ base.free_params.length →
      (KernelTree.node op t1 t2 base).set_hyperparams new_params =
        .error (.valueError "Length of new_params must match the free parameter count!")) := by
  refine ⟨?_, (free_params_length _ h1).symm, ?_, ?_⟩
  · intro hlen
    simp only [KernelTree.set_hyperparams]
    rw [if_pos hlen]
  · rw [free_params_eq_selectMask base, hcp, hcf, selectMask_append _ _ _ _ _ h1,
      List.length_append, free_params_eq_selectMask, free_params_eq_selectMask]
  · intro hne
    simp only [KernelTree.set_hyperparams]
    rw [if_neg hne]

/-- Witness for C7 at the concrete combinator `cexTree`. -/
theorem C7_binary_split_witness :
    (cexTree.set_hyperparams [5, 7] =
      match (KernelTree.leaf cexK1).set_hyperparams
          ([5, 7].take ((KernelTree.leaf cexK1).asKernel.fixed_params.count false)) with
      | .error e => .error e
      | .ok t1' =>
        match (KernelTree.leaf cexK2).set_hyperparams
            ([5, 7].drop ((KernelTree.leaf cexK1).asKernel.fixed_params.count false)) with
        | .error e => .error e
        | .ok t2' => .ok (.node .sum t1' t2'
            { cexTree.asKernel with
              params := maskedWrite cexTree.asKernel.params
                cexTree.asKernel.fixed_params [5, 7] })) ∧
    cexTree.asKernel.free_params.length =
      (KernelTree.leaf cexK1).asKernel.free_params.length +
        (KernelTree.leaf cexK2).asKernel.free_params.length ∧
    cexTree.set_hyperparams [5] =
      .error (.valueError "Length of new_params must match the free parameter count!") :=
  ⟨(C7_binary_split .sum (.leaf cexK1) (.leaf cexK2) cexTree.asKernel [5, 7]
      (by decide) (by decide) (by decide)).1 (by decide),
   (C7_binary_split .sum (.leaf cexK1) (.leaf cexK2) cexTree.asKernel [5, 7]
      (by decide) (by decide) (by decide)).2.2.1,
   (C7_binary_split .sum (.leaf cexK1) (.leaf cexK2) cexTree.asKernel [5]
      (by decide) (by decide) (by decide)).2.2.2 (by decide)⟩

theorem noEnforce_leaf_iff (k : Kernel) :
    NoEnforce (.leaf k) ↔ k.enforce_bounds = false := by
  simp [NoEnforce, NoEnforceB]

theorem noEnforce_node_iff (op : BinOp) (t1 t2 : KernelTree) (base : Kernel) :
    NoEnforce (.node op t1 t2 base) ↔ NoEnforce t1 ∧ NoEnforce t2 := by
  simp [NoEnforce, NoEnforceB]

theorem kernelWF_iff (k : Kernel) :
    KernelWF k ↔ k.params.length = k.fixed_params.length ∧
      k.param_bounds.length = k.fixed_params.length := by
  simp [KernelWF, KernelWFB]

theorem treeWF_leaf_iff (k : Kernel) : TreeWF (.leaf k) ↔ KernelWF k :=
  Iff.rfl

theorem treeWF_node_iff (op : BinOp) (t1 t2 : KernelTree) (base : Kernel) :
    TreeWF (.node op t1 t2 base) ↔ KernelWF base ∧ TreeWF t1 ∧ TreeWF t2 := by
  simp [TreeWF, TreeWFB, KernelWF, Bool.and_eq_true, and_assoc]

theorem treeWF_asKernel (t : KernelTree) (h : TreeWF t) : KernelWF t.asKernel := by
  cases t with
  | leaf k => exact h
  | node op t1 t2 base => exact ((treeWF_node_iff op t1 t2 base).mp h).1

theorem concatInv_leaf (k : Kernel) : ConcatInv (.leaf k) := rfl

theorem concatInv_node_iff (op : BinOp) (t1 t2 : KernelTree) (base : Kernel) :
    ConcatInv (.node op t1 t2 base) ↔
      base.params = t1.asKernel.params ++ t2.asKernel.params ∧
      base.fixed_params = t1.asKernel.fixed_params ++ t2.asKernel.fixed_params ∧
      base.param_bounds = t1.asKernel.param_bounds ++ t2.asKernel.param_bounds ∧
      base.hyperpriors = t1.asKernel.hyperpriors ++ t2.asKernel.hyperpriors ∧
      base.is_log = t1.asKernel.is_log ++ t2.asKernel.is_log ∧
      ConcatInv t1 ∧ ConcatInv t2 := by
  simp [ConcatInv, ConcatInvB, Bool.and_eq_true, decide_eq_true_eq, and_assoc]

theorem concatAttrs_leaf (k : Kernel) : ConcatAttrs (.leaf k) := rfl

theorem concatAttrs_node_iff (op : BinOp) (t1 t2 : KernelTree) (base : Kernel) :
    ConcatAttrs (.node op t1 t2 base) ↔
      base.fixed_params = t1.asKernel.fixed_params ++ t2.asKernel.fixed_params ∧
      base.param_bounds = t1.asKernel.param_bounds ++ t2.asKernel.param_bounds ∧
      base.hyperpriors = t1.asKernel.hyperpriors ++ t2.asKernel.hyperpriors ∧
      base.is_log = t1.asKernel.is_log ++ t2.asKernel.is_log ∧
      ConcatAttrs t1 ∧ ConcatAttrs t2 := by
  simp [ConcatAttrs, ConcatAttrsB, Bool.and_eq_true, decide_eq_true_eq, and_assoc]

theorem kernel_set_ok (k : Kernel) (new_params : List ℚ) (k' : Kernel)
    (h : k.set_hyperparams new_params = .ok k') :
    new_params.length = k.free_params.length ∧
    k' = { k with params := (maskedWrite k.params k.fixed_params
            (if k.enforce_bounds then
              List.zipWith (fun v b => clampToBounds b v) new_params
                k.free_param_bounds
            else new_params)) } := by
  by_cases hlen : new_params.length = k.free_params.length
  · unfold Kernel.set_hyperparams at h
    rw [if_pos hlen] at h
    exact ⟨hlen, (Except.ok.inj h).symm⟩
  · unfold Kernel.set_hyperparams at h
    rw [if_neg hlen] at h
    cases h

theorem tree_set_fields :
    ∀ (t : KernelTree) (new_params : List ℚ) (t' : KernelTree),
      t.set_hyperparams new_params = .ok t' →
      t'.asKernel.fixed_params = t.asKernel.fixed_params ∧
      t'.asKernel.param_bounds = t.asKernel.param_bounds ∧
      t'.asKernel.hyperpriors = t.asKernel.hyperpriors ∧
      t'.asKernel.is_log = t.asKernel.is_log ∧
      t'.asKernel.enforce_bounds = t.asKernel.enforce_bounds ∧
      t'.asKernel.params.length = t.asKernel.params.length ∧
      (ConcatAttrs t → ConcatAttrs t') ∧
      (TreeWF t → TreeWF t') ∧
      (NoEnforce t → NoEnforce t') := by
  intro t
  induction t with
  | leaf k =>
    intro new_params t' h
    simp only [KernelTree.set_hyperparams] at h
    cases hset : k.set_hyperparams new_params with
    | error e => rw [hset] at h; cases h
    | ok k' =>
      rw [hset] at h
      obtain rfl : KernelTree.leaf k' = t' := by
        simpa [Except.map] using h
      obtain ⟨hlen, rfl⟩ := kernel_set_ok k new_params k' hset
      refine ⟨rfl, rfl, rfl, rfl, rfl, maskedWrite_length _ _ _, fun _ => concatAttrs_leaf _,
        fun hwf => ?_, fun hne => ?_⟩
      · rw [treeWF_leaf_iff, kernelWF_iff] at hwf ⊢
        simpa [maskedWrite_length] using hwf
      · rw [noEnforce_leaf_iff] at hne ⊢
        exact hne
  | node op t1 t2 base ih1 ih2 =>
    intro new_params t' h
    simp only [KernelTree.set_hyperparams] at h
    by_cases hlen : new_params.length = base.free_params.length
    · rw [if_pos hlen] at h
      cases h1 : t1.set_hyperparams
          (List.take (List.count false t1.asKernel.fixed_params) new_params) with
      | error e => rw [h1] at h; cases h
      | ok t1' =>
        rw [h1] at h
        cases h2 : t2.set_hyperparams
            (List.drop (List.count false t1.asKernel.fixed_params) new_params) with
        | error e => rw [h2] at h; cases h
        | ok t2' =>
          rw [h2] at h
          obtain rfl : KernelTree.node op t1' t2'
              { base with
                params := maskedWrite base.params base.fixed_params new_params } = t' :=
            Except.ok.inj h
          obtain ⟨f1, b1, p1, l1, e1, len1, ca1, wf1, ne1⟩ := ih1 _ _ h1
          obtain ⟨f2, b2, p2, l2, e2, len2, ca2, wf2, ne2⟩ := ih2 _ _ h2
          refine ⟨rfl, rfl, rfl, rfl, rfl, maskedWrite_length _ _ _,
            fun hca => ?_, fun hwf => ?_, fun hne => ?_⟩
          · rw [concatAttrs_node_iff] at hca ⊢
            obtain ⟨cf, cb, cp, cl, c1, c2⟩ := hca
            exact ⟨by rw [f1, f2]; exact cf, by rw [b1, b2]; exact cb,
              by rw [p1, p2]; exact cp, by rw [l1, l2]; exact cl,
              ca1 c1, ca2 c2⟩
          · rw [treeWF_node_iff] at hwf ⊢
            obtain ⟨hk, w1, w2⟩ := hwf
            rw [kernelWF_iff] at hk ⊢
            exact ⟨⟨by simpa [maskedWrite_length] using hk.1, hk.2⟩, wf1 w1, wf2 w2⟩
          · rw [noEnforce_node_iff] at hne ⊢
            exact ⟨ne1 hne.1, ne2 hne.2⟩
    · rw [if_neg hlen] at h
      cases h

theorem tree_set_params :
    ∀ (t : KernelTree) (new_params : List ℚ) (t' : KernelTree),
      TreeWF t → ConcatInv t → NoEnforce t →
      t.set_hyperparams new_params = .ok t' →
      t'.asKernel.params =
        maskedWrite t.asKernel.params t.asKernel.fixed_params new_params ∧
      ConcatInv t' := by
  intro t
  induction t with
  | leaf k =>
    intro new_params t' hwf hinv hne h
    simp only [KernelTree.set_hyperparams] at h
    cases hset : k.set_hyperparams new_params with
    | error e => rw [hset] at h; cases h
    | ok k' =>
      rw [hset] at h
      obtain rfl : KernelTree.leaf k' = t' := by
        simpa [Except.map] using h
      obtain ⟨hlen, rfl⟩ := kernel_set_ok k new_params k' hset
      rw [noEnforce_leaf_iff] at hne
      refine ⟨?_, concatInv_leaf _⟩
      simp [KernelTree.asKernel, hne]
  | node op t1 t2 base ih1 ih2 =>
    intro new_params t' hwf hinv hne h
    rw [treeWF_node_iff] at hwf
    rw [concatInv_node_iff] at hinv
    rw [noEnforce_node_iff] at hne
    obtain ⟨hkb, w1, w2⟩ := hwf
    obtain ⟨cp, cf, cb, ch, cl, i1, i2⟩ := hinv
    obtain ⟨n1, n2⟩ := hne
    simp only [KernelTree.set_hyperparams] at h
    by_cases hlen : new_params.length = base.free_params.length
    · rw [if_pos hlen] at h
      cases h1 : t1.set_hyperparams
          (List.take (List.count false t1.asKernel.fixed_params) new_params) with
      | error e => rw [h1] at h; cases h
      | ok t1' =>
        rw [h1] at h
        cases h2 : t2.set_hyperparams
            (List.drop (List.count false t1.asKernel.fixed_params) new_params) with
        | error e => rw [h2] at h; cases h
        | ok t2' =>
          rw [h2] at h
          obtain rfl : KernelTree.node op t1' t2'
              { base with
                params := maskedWrite base.params base.fixed_params new_params } = t' :=
            Except.ok.inj h
          obtain ⟨hp1, hi1⟩ := ih1 _ _ w1 i1 n1 h1
          obtain ⟨hp2, hi2⟩ := ih2 _ _ w2 i2 n2 h2
          obtain ⟨ff1, bb1, hh1, ll1, ee1, llen1, _, _, _⟩ := tree_set_fields t1 _ _ h1
          obtain ⟨ff2, bb2, hh2, ll2, ee2, llen2, _, _, _⟩ := tree_set_fields t2 _ _ h2
          have hw1 : t1.asKernel.params.length = t1.asKernel.fixed_params.length :=
            ((kernelWF_iff _).mp (treeWF_asKernel t1 w1)).1
          refine ⟨rfl, ?_⟩
          rw [concatInv_node_iff]
          refine ⟨?_, by rw [ff1, ff2]; exact cf, by rw [bb1, bb2]; exact cb,
            by rw [hh1, hh2]; exact ch, by rw [ll1, ll2]; exact cl, hi1, hi2⟩
          show maskedWrite base.params base.fixed_params new_params =
            t1'.asKernel.params ++ t2'.asKernel.params
          rw [hp1, hp2, cp, cf, maskedWrite_append _ _ _ _ _ hw1]
    · rw [if_neg hlen] at h
      cases h

/-- Counterexample for C4 as stated: in `cexK1 + cexK2`, where the
child `cexK1` was constructed with `enforce_bounds = True`, setting
the free parameters to `[-5, 1]` makes the child clamp `-5` to its
lower bound `0` while the combinator writes the raw `-5` into its own
`params`, so the parent's `params` is no longer the concatenation of
the children's. -/
theorem C4_concat_invariant_counterexample :
    mkBinaryKernel .sum (.leaf cexK1) (.leaf cexK2) = .ok cexTree ∧
    ConcatInv cexTree ∧
    ∃ t', cexTree.set_hyperparams [-5, 1] = .ok t' ∧ ¬ ConcatInv t' := by
  refine ⟨by decide, by decide, ?_⟩
  refine ⟨.node .sum (.leaf { cexK1 with params := [0] })
    (.leaf { cexK2 with params := [1] })
    { cexTree.asKernel with params := [-5, 1] }, ?_, ?_⟩
  · decide
  · decide

/-- C4 (amended): the concatenation invariant on `params`,
`fixed_params`, `param_bounds`, `hyperpriors` and `is_log` is
established by combinator construction, and is preserved by every
successful `set_hyperparams` call provided no kernel in the tree
enforces bounds (so no incoming value is clamped); the four
attributes other than `params` remain concatenations under every
successful `set_hyperparams` call, bound enforcement or not. -/
theorem C4_concat_invariant :
    (∀ (op : BinOp) (t1 t2 t : KernelTree), ConcatInv t1 → ConcatInv t2 →
      mkBinaryKernel op t1 t2 = .ok t → ConcatInv t) ∧
    (∀ (t : KernelTree) (new_params : List ℚ) (t' : KernelTree),
      TreeWF t → ConcatInv t → NoEnforce t →
      t.set_hyperparams new_params = .ok t' →
      ConcatInv t' ∧ TreeWF t' ∧ NoEnforce t') ∧
    (∀ (t : KernelTree) (new_params : List ℚ) (t' : KernelTree),
      ConcatAttrs t → t.set_hyperparams new_params = .ok t' → ConcatAttrs t') := by
  refine ⟨?_, ?_, ?_⟩
  · intro op t1 t2 t hi1 hi2 h
    unfold mkBinaryKernel at h
    by_cases hd : t1.asKernel.num_dim = t2.asKernel.num_dim
    · rw [if_pos hd] at h
      obtain rfl := (Except.ok.inj h)
      rw [concatInv_node_iff]
      exact ⟨rfl, rfl, rfl, rfl, rfl, hi1, hi2⟩
    · rw [if_neg hd] at h
      cases h
  · intro t new_params t' hwf hinv hne h
    obtain ⟨_, hi⟩ := tree_set_params t new_params t' hwf hinv hne h
    obtain ⟨_, _, _, _, _, _, _, hw, hn⟩ := tree_set_fields t new_params t' h
    exact ⟨hi, hw hwf, hn hne⟩
  · intro t new_params t' hca h
    exact (tree_set_fields t new_params t' h).2.2.2.2.2.2.1 hca

/-- Witness for C4 (amended) at concrete trees without bound
enforcement. -/
theorem C4_concat_invariant_witness :
    (∃ t, mkBinaryKernel .prod (.leaf cexK2) (.leaf cexK2) = .ok t ∧ ConcatInv t) ∧
    (∃ t', witTree.set_hyperparams [4, 5] = .ok t' ∧
      ConcatInv t' ∧ TreeWF t' ∧ NoEnforce t') ∧
    (∃ t', cexTree.set_hyperparams [-5, 1] = .ok t' ∧ ConcatAttrs t') := by
  refine ⟨⟨.node .prod (.leaf cexK2) (.leaf cexK2) witTree.asKernel, by decide, ?_⟩,
    ⟨.node .prod (.leaf { cexK2 with params := [4] })
      (.leaf { cexK2 with params := [5] })
      { witTree.asKernel with params := [4, 5] }, by decide, ?_⟩,
    ⟨.node .sum (.leaf { cexK1 with params := [0] })
      (.leaf { cexK2 with params := [1] })
      { cexTree.asKernel with params := [-5, 1] }, by decide, ?_⟩⟩
  · exact C4_concat_invariant.1 .prod (.leaf cexK2) (.leaf cexK2) _
      (by decide) (by decide) (by decide)
  · exact C4_concat_invariant.2.1 witTree [4, 5] _
      (by decide) (by decide) (by decide) (by decide)
  · exact C4_concat_invariant.2.2 cexTree [-5, 1] _ (by decide) (by decide)

theorem assignAt_map_eq :
    ∀ (idxs : List ℕ) (k : List ℚ) (g : ℕ → ℚ),
      assignAt k idxs (idxs.map g) = idxs.foldl (fun k i => k.set i (g i)) k := by
  intro idxs
  induction idxs with
  | nil => intro k g; rfl
  | cons i is ih =>
    intro k g
    simp only [assignAt, List.map_cons, List.zip_cons_cons, List.foldl_cons]
    exact ih (k.set i (g i)) g

/-- C10: the numerically-differentiated kernel returns the same
covariance vector whether configured fully serial (`num_proc = 0`) or
with a worker pool of more than one process: the pooled fan-out maps
the same per-row oracle over each group and assigns results back by
index. -/
theorem foldl_congr_fun {α β : Type} (f g : β → α → β) (l : List α) (init : β)
    (h : ∀ b a, f b a = g b a) : l.foldl f init = l.foldl g init := by
  have hfg : f = g := funext fun b => funext fun a => h b a
  rw [hfg]

theorem C10_parallel_serial_eq (K : Kernel) (cov : List ℚ → List ℚ → List ℚ → ℚ)
    (nd : List ℚ → List ℕ → ℚ) (p : ℕ) (hp : 1 < p)
    (Xi Xj : List (List ℚ)) (ni nj : List (List ℕ)) (hd : Option ℕ) (sym : Bool) :
    ArbitraryKernel.call ⟨K, cov, nd, 0⟩ Xi Xj ni nj hd sym =
    ArbitraryKernel.call ⟨K, cov, nd, p⟩ Xi Xj ni nj hd sym := by
  by_cases h : hd ≠ none
  · simp only [ArbitraryKernel.call, if_pos h]
  · simp only [ArbitraryKernel.call, if_neg h]
    congr 1
    refine foldl_congr_fun _ _ _ _ ?_
    intro k state
    by_cases hz : state.all (· == 0)
    · simp only [if_pos hz]
    · simp only [if_neg hz]
      by_cases hc : 0 < p ∧ 1 < (idxsWhere (List.zipWith (· ++ ·) ni nj) state).length
      · rw [if_neg (by omega), if_pos hc, List.map_map, assignAt_map_eq]
        simp [Function.comp]
      · rw [if_neg (by omega), if_neg hc]

/-- Witness for C10: two input pairs sharing a non-zero derivative
pattern, so the pooled branch is actually exercised at pool size 2. -/
theorem C10_parallel_serial_eq_witness :
    ArbitraryKernel.call (witAK 0) [[1], [2]] [[0], [0]] [[1], [1]] [[0], [0]]
      none false =
    ArbitraryKernel.call (witAK 2) [[1], [2]] [[0], [0]] [[1], [1]] [[0], [0]]
      none false :=
  C10_parallel_serial_eq _ _ _ 2 (by norm_num) [[1], [2]] [[0], [0]]
    [[1], [1]] [[0], [0]] none false

theorem dk_dtau_eq_map (ck : ChainRuleKernel) (tau : List (List ℚ)) (n : List ℕ) :
    ck._compute_dk_dtau tau n = tau.map (dkRow ck n) := by
  by_cases h : derivPattern n = [] <;>
    simp [ChainRuleKernel._compute_dk_dtau, dkRow, h]

theorem getD_zipWith {α β γ : Type} (f : α → β → γ) :
    ∀ (l1 : List α) (l2 : List β) (i : ℕ) (d1 : α) (d2 : β) (d : γ),
      i < l1.length → i < l2.length →
      (List.zipWith f l1 l2).getD i d = f (l1.getD i d1) (l2.getD i d2) := by
  intro l1
  induction l1 with
  | nil => intro l2 i d1 d2 d h1 h2; simp at h1
  | cons a l1 ih =>
    intro l2 i d1 d2 d h1 h2
    cases l2 with
    | nil => simp at h2
    | cons b l2 =>
      cases i with
      | zero => rfl
      | succ j =>
        simp only [List.zipWith_cons_cons, List.getD_cons_succ]
        exact ih l2 j d1 d2 d (by simpa using h1) (by simpa using h2)

theorem getD_map {α β : Type} (f : α → β) :
    ∀ (l : List α) (i : ℕ) (d : α) (d' : β), i < l.length →
      (l.map f).getD i d' = f (l.getD i d) := by
  intro l
  induction l with
  | nil => intro i d d' h; simp at h
  | cons a l ih =>
    intro i d d' h
    cases i with
    | zero => rfl
    | succ j =>
      simp only [List.map_cons, List.getD_cons_succ]
      exact ih j d d' (by simpa using h)

theorem getD_mem {α : Type} [Inhabited α] :
    ∀ (l : List α) (i : ℕ) (d : α), i < l.length → l.getD i d ∈ l := by
  intro l
  induction l with
  | nil => intro i d h; simp at h
  | cons a l ih =>
    intro i d h
    cases i with
    | zero => exact List.mem_cons_self a l
    | succ j =>
      simp only [List.getD_cons_succ]
      exact List.mem_cons_of_mem a (ih j d (by simpa using h))

theorem selectRows_cons {α : Type} (r : α) (rs : List α) (key : List ℕ)
    (keys : List (List ℕ)) (state : List ℕ) :
    selectRows (r :: rs) (key :: keys) state =
      (if key = state then [r] else []) ++ selectRows rs keys state := by
  by_cases h : key = state <;> simp [selectRows, h]

theorem maskedAssign_length :
    ∀ (k : List ℚ) (keys : List (List ℕ)) (state : List ℕ) (vals : List ℚ),
      (maskedAssign k keys state vals).length = k.length := by
  intro k
  induction k with
  | nil => intro keys state vals; rfl
  | cons kv ks ih =>
    intro keys state vals
    cases keys with
    | nil => rfl
    | cons key keyt =>
      by_cases h : key = state <;> simp [maskedAssign, h, ih]

theorem maskedAssign_getD (g : List ℚ → ℚ) :
    ∀ (k : List ℚ) (keys : List (List ℕ)) (tau : List (List ℚ)) (state : List ℕ)
      (i : ℕ), k.length = keys.length → tau.length = keys.length →
      i < keys.length →
      (maskedAssign k keys state ((selectRows tau keys state).map g)).getD i 0 =
        if keys.getD i [] = state then g (tau.getD i []) else k.getD i 0 := by
  intro k
  induction k with
  | nil => intro keys tau state i hk _ hi; rw [← hk] at hi; simp at hi
  | cons kv ks ih =>
    intro keys tau state i hk ht hi
    cases keys with
    | nil => simp at hk
    | cons key keyt =>
      cases tau with
      | nil => simp at ht
      | cons t0 taut =>
        rw [selectRows_cons]
        by_cases hks : key = state
        · simp only [hks, if_pos rfl, List.singleton_append, List.map_cons]
          simp only [maskedAssign, if_pos rfl, List.headD_cons, List.tail_cons]
          cases i with
          | zero => simp [hks]
          | succ j =>
            simp only [List.getD_cons_succ]
            exact ih keyt taut state j (by simpa using hk) (by simpa using ht)
              (by simpa using hi)
        · simp only [if_neg hks, List.nil_append]
          simp only [maskedAssign, if_neg hks]
          cases i with
          | zero => simp [hks]
          | succ j =>
            simp only [List.getD_cons_succ]
            exact ih keyt taut state j (by simpa using hk) (by simpa using ht)
              (by simpa using hi)

theorem fold_maskedAssign_length (f : List ℕ → List ℚ → ℚ) :
    ∀ (states : List (List ℕ)) (k : List ℚ) (keys : List (List ℕ))
      (tau : List (List ℚ)),
      (states.foldl (fun k state =>
        maskedAssign k keys state ((selectRows tau keys state).map (f state))) k).length
        = k.length := by
  intro states
  induction states with
  | nil => intro k keys tau; rfl
  | cons s rest ih =>
    intro k keys tau
    simp only [List.foldl_cons]
    rw [ih, maskedAssign_length]

theorem fold_maskedAssign_getD (f : List ℕ → List ℚ → ℚ) :
    ∀ (states : List (List ℕ)) (k : List ℚ) (keys : List (List ℕ))
      (tau : List (List ℚ)) (i : ℕ),
      states.Nodup → k.length = keys.length → tau.length = keys.length →
      i < keys.length →
      ((states.foldl (fun k state =>
          maskedAssign k keys state
            ((selectRows tau keys state).map (f state))) k).getD i 0) =
        if keys.getD i [] ∈ states then f (keys.getD i []) (tau.getD i [])
        else k.getD i 0 := by
  intro states
  induction states with
  | nil => intro k keys tau i _ _ _ _; simp
  | cons s rest ih =>
    intro k keys tau i hnd hk ht hi
    rw [List.nodup_cons] at hnd
    simp only [List.foldl_cons]
    rw [ih _ _ _ _ hnd.2 (by rw [maskedAssign_length]; exact hk) ht hi]
    by_cases hmem : keys.getD i [] ∈ rest
    · rw [if_pos hmem, if_pos (List.mem_cons_of_mem s hmem)]
    · rw [if_neg hmem, maskedAssign_getD (f s) k keys tau s i hk ht hi]
      by_cases heq : keys.getD i [] = s
      · rw [if_pos heq, if_pos (by rw [heq]; exact List.mem_cons_self s rest), heq]
      · rw [if_neg heq, if_neg (by rw [List.mem_cons]; push_neg; exact ⟨heq, hmem⟩)]

theorem chainrule_call_getD (ck : ChainRuleKernel) (Xi Xj : List (List ℚ))
    (ni nj : List (List ℕ)) (sym : Bool)
    (hxj : Xj.length = Xi.length) (hni : ni.length = Xi.length)
    (hnj : nj.length = Xi.length) (i : ℕ) (hi : i < Xi.length) :
    ∃ outs, ck.call Xi Xj ni nj none sym = .ok outs ∧
      outs.getD i 0 = ck.toKernel.params.headD 0 ^ 2 *
        (-1 : ℚ) ^ (nj.getD i []).sum *
        dkRow ck (List.zipWith (· + ·) (ni.getD i []) (nj.getD i []))
          (List.zipWith (· - ·) (Xi.getD i []) (Xj.getD i [])) := by
  have htau : (List.zipWith (List.zipWith (· - ·)) Xi Xj).length = Xi.length := by
    rw [List.length_zipWith, hxj, Nat.min_self]
  have hnc : (List.zipWith (List.zipWith (· + ·)) ni nj).length = Xi.length := by
    rw [List.length_zipWith, hni, hnj, Nat.min_self]
  have hfold :
      (unique_rows (List.zipWith (List.zipWith (· + ·)) ni nj)).foldl
        (fun k state =>
          maskedAssign k (List.zipWith (List.zipWith (· + ·)) ni nj) state
            (ck._compute_dk_dtau
              (selectRows (List.zipWith (List.zipWith (· - ·)) Xi Xj)
                (List.zipWith (List.zipWith (· + ·)) ni nj) state) state))
        (List.replicate Xi.length 0) =
      (unique_rows (List.zipWith (List.zipWith (· + ·)) ni nj)).foldl
        (fun k state =>
          maskedAssign k (List.zipWith (List.zipWith (· + ·)) ni nj) state
            ((selectRows (List.zipWith (List.zipWith (· - ·)) Xi Xj)
                (List.zipWith (List.zipWith (· + ·)) ni nj) state).map
              (dkRow ck state)))
        (List.replicate Xi.length 0) := by
    refine foldl_congr_fun _ _ _ _ ?_
    intro k state
    rw [dk_dtau_eq_map]
  simp only [ChainRuleKernel.call]
  rw [if_neg (by simp)]
  rw [hfold]
  refine ⟨_, rfl, ?_⟩
  rw [getD_zipWith _ _ _ _ 0 0 _
      (by rw [List.length_map, hnj]; exact hi)
      (by rw [fold_maskedAssign_length, List.length_replicate]; exact hi)]
  rw [getD_map _ _ _ [] _ (by rw [hnj]; exact hi)]
  rw [fold_maskedAssign_getD (dkRow ck) _ _ _ _ _
      (nodup_unique_rows _)
      (by rw [List.length_replicate, hnc])
      (by rw [htau, hnc])
      (by rw [hnc]; exact hi)]
  rw [if_pos ((mem_unique_rows _ _).mpr
      (getD_mem _ i [] (by rw [hnc]; exact hi)))]
  rw [getD_zipWith (List.zipWith (· + ·)) ni nj i [] [] []
      (by rw [hni]; exact hi) (by rw [hnj]; exact hi)]
  rw [getD_zipWith (List.zipWith (· - ·)) Xi Xj i [] [] []
      hi (by rw [hxj]; exact hi)]

theorem on_partition_eq (ck : ChainRuleKernel) (row : List ℚ) (p : List (List ℕ)) :
    ck._compute_dk_dtau_on_partition row p =
      ck.compute_dk_dy (ck._compute_y row) p.length *
        (p.map (fun b => ck.compute_dy_dtau row b (r2l2row ck.toKernel row))).prod := by
  simp only [ChainRuleKernel._compute_dk_dtau_on_partition]
  rw [foldl_mul_eq]

/-- C1: for every chain-rule kernel and every input pair whose
combined multi-index `ni + nj` is non-zero (non-empty derivative
pattern), `evaluate` returns the square of the first hyperparameter,
times `(-1)` raised to the total derivative order requested on the
second coordinate set, times the multivariate Faa di Bruno sum: over
every set partition of the expanded derivative pattern, the
`|blocks|`-th derivative of the base covariance with respect to `y`,
times the product over the partition's blocks of the partial
derivative of `y` with respect to `tau` restricted to that block's
dimensions, all evaluated at `tau = Xi - Xj`. -/
theorem C1_chainrule_faa_di_bruno (ck : ChainRuleKernel) (Xi Xj : List (List ℚ))
    (ni nj : List (List ℕ)) (sym : Bool)
    (hxj : Xj.length = Xi.length) (hni : ni.length = Xi.length)
    (hnj : nj.length = Xi.length) (i : ℕ) (hi : i < Xi.length)
    (hnz : derivPattern (List.zipWith (· + ·) (ni.getD i []) (nj.getD i [])) ≠ []) :
    ∃ outs, ck.call Xi Xj ni nj none sym = .ok outs ∧
      outs.getD i 0 =
        ck.toKernel.params.headD 0 ^ 2 * (-1 : ℚ) ^ (nj.getD i []).sum *
        ((generate_set_partitions
            (derivPattern (List.zipWith (· + ·) (ni.getD i []) (nj.getD i [])))).map
          (fun part =>
            ck.compute_dk_dy
              (ck._compute_y (List.zipWith (· - ·) (Xi.getD i []) (Xj.getD i [])))
              part.length *
            (part.map (fun b =>
              ck.compute_dy_dtau
                (List.zipWith (· - ·) (Xi.getD i []) (Xj.getD i [])) b
                (r2l2row ck.toKernel
                  (List.zipWith (· - ·) (Xi.getD i []) (Xj.getD i []))))).prod)).sum := by
  obtain ⟨outs, hcall, hval⟩ :=
    chainrule_call_getD ck Xi Xj ni nj sym hxj hni hnj i hi
  refine ⟨outs, hcall, ?_⟩
  rw [hval]
  simp only [dkRow, if_neg hnz]
  congr 2
  refine List.map_congr_left ?_
  intro part _
  exact on_partition_eq ck _ part

/-- Witness for C1: one one-dimensional pair with combined multi-index
`[2]` (pattern `[0, 0]`, two set partitions). -/
theorem C1_chainrule_faa_di_bruno_witness :
    ∃ outs, witCK.call [[3]] [[1]] [[1]] [[1]] none false = .ok outs ∧
      outs.getD 0 0 =
        witCK.toKernel.params.headD 0 ^ 2 * (-1 : ℚ) ^ ([1].sum) *
        ((generate_set_partitions
            (derivPattern (List.zipWith (· + ·) [1] [1]))).map
          (fun part =>
            witCK.compute_dk_dy
              (witCK._compute_y (List.zipWith (· - ·) [3] [1])) part.length *
            (part.map (fun b =>
              witCK.compute_dy_dtau (List.zipWith (· - ·) [3] [1]) b
                (r2l2row witCK.toKernel (List.zipWith (· - ·) [3] [1])))).prod)).sum := by
  have h := C1_chainrule_faa_di_bruno witCK [[3]] [[1]] [[1]] [[1]] false
    rfl rfl rfl 0 (by norm_num) (by decide)
  simpa using h

/-! ## Lexicographic order lemmas for the Algorithm H proof -/

theorem lexLt_irrefl : ∀ (a : List ℕ), lexLt a a = false := by
  intro a
  induction a with
  | nil => rfl
  | cons x xs ih => simp [lexLt, ih]

theorem lexLt_cons_same (x : ℕ) (xs ys : List ℕ) :
    lexLt (x :: xs) (x :: ys) = lexLt xs ys := by
  simp [lexLt]

theorem lexLt_cons_lt {x y : ℕ} (h : x < y) (xs ys : List ℕ) :
    lexLt (x :: xs) (y :: ys) = true := by
  simp [lexLt, h]

theorem lexLt_trans :
    ∀ (a b c : List ℕ), lexLt a b = true → lexLt b c = true → lexLt a c = true := by
  intro a
  induction a with
  | nil =>
    intro b c hab hbc
    cases c with
    | nil =>
      cases b with
      | nil => exact hab
      | cons y ys => simp [lexLt] at hbc
    | cons z zs => rfl
  | cons x xs ih =>
    intro b c hab hbc
    cases b with
    | nil => simp [lexLt] at hab
    | cons y ys =>
      cases c with
      | nil => simp [lexLt] at hbc
      | cons z zs =>
        simp only [lexLt, Bool.or_eq_true, decide_eq_true_eq, Bool.and_eq_true] at hab hbc ⊢
        rcases hab with h1 | ⟨rfl, h1⟩
        · rcases hbc with h2 | ⟨rfl, h2⟩
          · exact Or.inl (h1.trans h2)
          · exact Or.inl h1
        · rcases hbc with h2 | ⟨rfl, h2⟩
          · exact Or.inl h2
          · exact Or.inr ⟨rfl, ih ys zs h1 h2⟩

theorem lexLt_total :
    ∀ (a b : List ℕ), lexLt a b = true ∨ a = b ∨ lexLt b a = true := by
  intro a
  induction a with
  | nil =>
    intro b
    cases b with
    | nil => exact Or.inr (Or.inl rfl)
    | cons y ys => exact Or.inl rfl
  | cons x xs ih =>
    intro b
    cases b with
    | nil => exact Or.inr (Or.inr rfl)
    | cons y ys =>
      rcases Nat.lt_trichotomy x y with h | rfl | h
      · exact Or.inl (lexLt_cons_lt h xs ys)
      · rcases ih ys with h1 | rfl | h1
        · exact Or.inl (by rw [lexLt_cons_same]; exact h1)
        · exact Or.inr (Or.inl rfl)
        · exact Or.inr (Or.inr (by rw [lexLt_cons_same]; exact h1))
      · exact Or.inr (Or.inr (lexLt_cons_lt h ys xs))

theorem lexLt_asymm :
    ∀ (a b : List ℕ), lexLt a b = true → lexLt b a = false := by
  intro a b hab
  by_contra h
  rw [Bool.not_eq_false] at h
  have := lexLt_trans a b a hab h
  rw [lexLt_irrefl] at this
  cases this

/-! ## Restricted-growth-string enumeration lemmas -/

theorem mem_rgsAux :
    ∀ (len m : ℕ) (s : List ℕ),
      s ∈ rgsAux len m ↔ s.length = len ∧ validFrom m s = true := by
  intro len
  induction len with
  | zero =>
    intro m s
    simp only [rgsAux, List.mem_singleton]
    constructor
    · rintro rfl; exact ⟨rfl, rfl⟩
    · rintro ⟨h, _⟩; exact List.length_eq_zero.mp h
  | succ len ih =>
    intro m s
    simp only [rgsAux, List.mem_flatMap, List.mem_map, List.mem_range]
    constructor
    · rintro ⟨d, hd, t, ht, rfl⟩
      obtain ⟨hlen, hval⟩ := (ih _ t).mp ht
      refine ⟨by simp [hlen], ?_⟩
      simp only [validFrom, Bool.and_eq_true, decide_eq_true_eq]
      exact ⟨by omega, hval⟩
    · rintro ⟨hlen, hval⟩
      cases s with
      | nil => simp at hlen
      | cons d t =>
        simp only [validFrom, Bool.and_eq_true, decide_eq_true_eq] at hval
        exact ⟨d, by omega, t, (ih _ t).mpr ⟨by simpa using hlen, hval.2⟩, rfl⟩

theorem pairwise_flatMap_of {α β : Type} (R : β → β → Prop) (F : α → List β) :
    ∀ (ds : List α),
      ds.Pairwise (fun d d' => ∀ x ∈ F d, ∀ y ∈ F d', R x y) →
      (∀ d ∈ ds, (F d).Pairwise R) → (ds.flatMap F).Pairwise R := by
  intro ds
  induction ds with
  | nil => intro _ _; simp
  | cons d rest ih =>
    intro hcross hin
    rw [List.flatMap_cons, List.pairwise_append]
    refine ⟨hin d (List.mem_cons_self d rest), ih (List.Pairwise.of_cons hcross)
      (fun d' hd' => hin d' (List.mem_cons_of_mem d hd')), ?_⟩
    intro x hx y hy
    rw [List.mem_flatMap] at hy
    obtain ⟨d', hd', hyd⟩ := hy
    exact (List.pairwise_cons.mp hcross).1 d' hd' x hx y hyd

theorem sorted_rgsAux :
    ∀ (len m : ℕ), (rgsAux len m).Pairwise (fun a b => lexLt a b = true) := by
  intro len
  induction len with
  | zero => intro m; simp [rgsAux]
  | succ len ih =>
    intro m
    simp only [rgsAux]
    refine pairwise_flatMap_of _ _ _ ?_ ?_
    · have : ∀ (d d' : ℕ), d < d' →
          ∀ x ∈ (rgsAux len (max m (d + 1))).map (d :: ·),
          ∀ y ∈ (rgsAux len (max m (d' + 1))).map (d' :: ·), lexLt x y = true := by
        intro d d' hdd x hx y hy
        rw [List.mem_map] at hx hy
        obtain ⟨t, _, rfl⟩ := hx
        obtain ⟨t', _, rfl⟩ := hy
        exact lexLt_cons_lt hdd t t'
      have hr : (List.range (m + 1)).Pairwise (· < ·) := List.pairwise_lt_range _
      exact hr.imp_of_mem (fun {a b} _ _ hab => this a b hab)
    · intro d _
      rw [List.pairwise_map]
      refine (ih (max m (d + 1))).imp ?_
      intro a b hab
      rw [lexLt_cons_same]
      exact hab

theorem grb_zero (a : List ℕ) : grb a 0 = 0 := rfl

theorem grb_cons_succ (x : ℕ) (xs : List ℕ) (i : ℕ) :
    grb (x :: xs) (i + 1) = max (x + 1) (grb xs i) := rfl

theorem validFrom_iff_grb :
    ∀ (s : List ℕ) (m : ℕ),
      validFrom m s = true ↔ ∀ i < s.length, s.getD i 0 ≤ max m (grb s i) := by
  intro s
  induction s with
  | nil => intro m; simp [validFrom]
  | cons x xs ih =>
    intro m
    simp only [validFrom, Bool.and_eq_true, decide_eq_true_eq]
    constructor
    · rintro ⟨hx, hval⟩
      intro i hi
      cases i with
      | zero => simpa [grb_zero] using hx
      | succ j =>
        have := (ih (max m (x + 1))).mp hval j (by simpa using hi)
        simp only [List.getD_cons_succ, grb_cons_succ]
        omega
    · intro h
      refine ⟨by simpa [grb_zero] using h 0 (by simp), ?_⟩
      rw [ih (max m (x + 1))]
      intro j hj
      have := h (j + 1) (by simpa using hj)
      simp only [List.getD_cons_succ, grb_cons_succ] at this
      omega

theorem validFrom_getD_le :
    ∀ (s : List ℕ) (m : ℕ), validFrom m s = true →
      ∀ i < s.length, s.getD i 0 ≤ m + i := by
  intro s
  induction s with
  | nil => intro m _ i hi; simp at hi
  | cons x xs ih =>
    intro m hval i hi
    simp only [validFrom, Bool.and_eq_true, decide_eq_true_eq] at hval
    cases i with
    | zero => simpa using hval.1
    | succ j =>
      have := ih (max m (x + 1)) hval.2 j (by simpa using hi)
      simp only [List.getD_cons_succ]
      omega

theorem rgsAux_length_le :
    ∀ (len m : ℕ), (rgsAux len m).length ≤ (m + len) ^ len := by
  intro len
  induction len with
  | zero => intro m; simp [rgsAux]
  | succ len ih =>
    intro m
    simp only [rgsAux, List.length_flatMap]
    have hbound : ∀ x ∈ (List.range (m + 1)).map
        (fun d => ((rgsAux len (max m (d + 1))).map (d :: ·)).length),
        x ≤ (m + 1 + len) ^ len := by
      intro x hx
      rw [List.mem_map] at hx
      obtain ⟨d, hd, rfl⟩ := hx
      rw [List.mem_range] at hd
      rw [List.length_map]
      calc (rgsAux len (max m (d + 1))).length
          ≤ (max m (d + 1) + len) ^ len := ih _
        _ ≤ (m + 1 + len) ^ len := Nat.pow_le_pow_left (by omega) _
    calc ((List.range (m + 1)).map
          (fun d => ((rgsAux len (max m (d + 1))).map (d :: ·)).length)).sum
        ≤ ((List.range (m + 1)).map
            (fun d => ((rgsAux len (max m (d + 1))).map (d :: ·)).length)).length *
            (m + 1 + len) ^ len := by
          exact List.sum_le_card_nsmul _ _ hbound
      _ = (m + 1) * (m + 1 + len) ^ len := by simp
      _ ≤ (m + (len + 1)) * (m + (len + 1)) ^ len := by
          refine Nat.mul_le_mul (by omega) (Nat.pow_le_pow_left (by omega) _)
      _ = (m + (len + 1)) ^ (len + 1) := (pow_succ' _ _).symm

theorem getLast?_filter_range (p : ℕ → Bool) :
    ∀ (N j : ℕ), ((List.range N).filter p).getLast? = some j ↔
      (j < N ∧ p j = true ∧ ∀ i, j < i → i < N → p i = false) := by
  intro N
  induction N with
  | zero => intro j; simp
  | succ N ih =>
    intro j
    rw [List.range_succ, List.filter_append]
    by_cases hp : p N = true
    · simp only [List.filter_cons, hp, if_pos, List.filter_nil]
      rw [List.getLast?_concat]
      constructor
      · intro h
        obtain rfl : j = N := by injection h with h; exact h.symm
        exact ⟨by omega, hp, by omega⟩
      · rintro ⟨hj, hpj, hnone⟩
        rcases Nat.lt_or_ge j N with hlt | hge
        · exact absurd hp (by simpa using hnone N hlt (by omega))
        · have : j = N := by omega
          rw [this]
    · have hp' : p N = false := by simpa using hp
      simp only [List.filter_cons, hp', Bool.false_eq_true, if_false, List.filter_nil,
        List.append_nil]
      rw [ih j]
      constructor
      · rintro ⟨hj, hpj, hnone⟩
        refine ⟨by omega, hpj, ?_⟩
        intro i hji hiN
        rcases Nat.lt_or_ge i N with h | h
        · exact hnone i hji h
        · have : i = N := by omega
          rw [this]; exact hp'
      · rintro ⟨hj, hpj, hnone⟩
        have hjN : j ≠ N := by
          rintro rfl
          rw [hpj] at hp'; cases hp'
        exact ⟨by omega, hpj, fun i h1 h2 => hnone i h1 (by omega)⟩

theorem findJ_eq_some_iff (a b : List ℕ) (j : ℕ) :
    findJ a b = some j ↔
      (j < a.length - 1 ∧ a.getD j 0 ≠ b.getD j 0 ∧
        ∀ i, j < i → i < a.length - 1 → a.getD i 0 = b.getD i 0) := by
  unfold findJ
  rw [getLast?_filter_range]
  constructor
  · rintro ⟨h1, h2, h3⟩
    refine ⟨h1, by simpa using h2, ?_⟩
    intro i hi1 hi2
    have := h3 i hi1 hi2
    simpa using this
  · rintro ⟨h1, h2, h3⟩
    refine ⟨h1, by simpa using h2, ?_⟩
    intro i hi1 hi2
    simpa using h3 i hi1 hi2

theorem findJ_exists (a b : List ℕ) (hlen : 2 ≤ a.length)
    (hne : a.getD 0 0 ≠ b.getD 0 0) : ∃ j, findJ a b = some j := by
  have hmem : 0 ∈ (List.range (a.length - 1)).filter
      (fun i => decide (a.getD i 0 ≠ b.getD i 0)) := by
    rw [List.mem_filter]
    exact ⟨List.mem_range.mpr (by omega), by simpa using hne⟩
  have hne' : (List.range (a.length - 1)).filter
      (fun i => decide (a.getD i 0 ≠ b.getD i 0)) ≠ [] :=
    List.ne_nil_of_mem hmem
  unfold findJ
  have hsome : (((List.range (a.length - 1)).filter
      (fun i => decide (a.getD i 0 ≠ b.getD i 0))).getLast?).isSome := by
    rw [List.getLast?_isSome]
    exact hne'
  exact Option.isSome_iff_exists.mp hsome

/-! ## Indexing helper lemmas -/

theorem getD_replicate (c : ℕ) : ∀ (m i : ℕ), i < m →
    (List.replicate m c).getD i 0 = c := by
  intro m
  induction m with
  | zero => intro i hi; omega
  | succ m ih =>
    intro i hi
    cases i with
    | zero => rfl
    | succ j =>
      simp only [List.replicate_succ, List.getD_cons_succ]
      exact ih j (by omega)

theorem getD_take (a : List ℕ) (k i : ℕ) (hik : i < k) :
    (a.take k).getD i 0 = a.getD i 0 := by
  by_cases hi : i < a.length
  · rw [List.getD_eq_getElem _ _ (by rw [List.length_take]; omega),
      List.getD_eq_getElem _ _ hi]
    exact List.getElem_take a
  · rw [List.getD_eq_default _ _ (by rw [List.length_take]; omega),
      List.getD_eq_default _ _ (by omega)]

theorem take_set_of_le : ∀ (a : List ℕ) (k v i : ℕ), i ≤ k →
    (a.set k v).take i = a.take i := by
  intro a
  induction a with
  | nil => intro k v i _; simp
  | cons x xs ih =>
    intro k v i hik
    cases k with
    | zero =>
      have : i = 0 := by omega
      simp [this]
    | succ k =>
      cases i with
      | zero => simp
      | succ j =>
        simp only [List.set_cons_succ, List.take_succ_cons]
        rw [ih k v j (by omega)]

theorem getD_set_ne (a : List ℕ) (k v i : ℕ) (h : i ≠ k) :
    (a.set k v).getD i 0 = a.getD i 0 := by
  by_cases hi : i < a.length
  · rw [List.getD_eq_getElem _ _ (by simpa using hi), List.getD_eq_getElem _ _ hi]
    exact List.getElem_set_ne (by omega) _
  · rw [List.getD_eq_default _ _ (by simpa using hi),
      List.getD_eq_default _ _ (by omega)]

theorem getD_set_self (a : List ℕ) (k v : ℕ) (h : k < a.length) :
    (a.set k v).getD k 0 = v := by
  rw [List.getD_eq_getElem _ _ (by simpa using h)]
  exact List.getElem_set_self _

theorem drop_last_singleton (a : List ℕ) (m : ℕ) (h : a.length = m + 1) :
    a.drop m = [a.getD m 0] := by
  rw [List.drop_eq_getElem_cons (by omega)]
  rw [List.getD_eq_getElem _ _ (by omega)]
  congr 1
  rw [List.drop_eq_nil_iff]
  omega

theorem set_last_eq (a : List ℕ) (m v : ℕ) (h : a.length = m + 1) :
    a.set m v = a.take m ++ [v] := by
  rw [List.set_eq_take_append_cons_drop, if_pos (by omega)]
  congr 1
  rw [show a.drop (m + 1) = [] from List.drop_eq_nil_iff.mpr (by omega)]

theorem take_getD_drop (a : List ℕ) (i : ℕ) (h : i < a.length) :
    a = a.take i ++ a.getD i 0 :: a.drop (i + 1) := by
  conv_lhs => rw [← List.take_append_drop i a]
  rw [List.drop_eq_getElem_cons h, List.getD_eq_getElem _ _ h]

theorem getD_append_at (p : List ℕ) (x : ℕ) (u : List ℕ) :
    (p ++ x :: u).getD p.length 0 = x := by
  rw [List.getD_append_right _ _ _ _ (le_refl _)]
  simp

/-! ## Structural lemmas for the lexicographic comparison -/

theorem lexLt_append_same :
    ∀ (p u v : List ℕ), lexLt (p ++ u) (p ++ v) = lexLt u v := by
  intro p
  induction p with
  | nil => intro u v; rfl
  | cons x ps ih =>
    intro u v
    simp only [List.cons_append]
    rw [lexLt_cons_same]
    exact ih u v

theorem lexLt_of_split (p : List ℕ) {x y : ℕ} (u v : List ℕ) (h : x < y) :
    lexLt (p ++ x :: u) (p ++ y :: v) = true := by
  rw [lexLt_append_same]
  exact lexLt_cons_lt h u v

theorem lexLt_split :
    ∀ (s t : List ℕ), s.length = t.length → lexLt s t = true →
      ∃ p x y u v, x < y ∧ s = p ++ x :: u ∧ t = p ++ y :: v := by
  intro s
  induction s with
  | nil =>
    intro t hlen hlt
    cases t with
    | nil => cases hlt
    | cons y ys => simp at hlen
  | cons x xs ih =>
    intro t hlen hlt
    cases t with
    | nil => cases hlt
    | cons y ys =>
      simp only [lexLt, Bool.or_eq_true, decide_eq_true_eq, Bool.and_eq_true] at hlt
      rcases hlt with h | ⟨rfl, h⟩
      · exact ⟨[], x, y, xs, ys, h, rfl, rfl⟩
      · obtain ⟨p, x', y', u, v, hxy, hs, ht⟩ := ih ys (by simpa using hlen) h
        exact ⟨x :: p, x', y', u, v, hxy, by rw [hs]; rfl, by rw [ht]; rfl⟩

theorem lexLt_zeros (n : ℕ) :
    ∀ (s : List ℕ), s.length = n → lexLt s (List.replicate n 0) = false := by
  induction n with
  | zero =>
    intro s hs
    rw [List.length_eq_zero.mp hs]
    rfl
  | succ m ih =>
    intro s hs
    cases s with
    | nil => simp at hs
    | cons x xs =>
      rw [List.replicate_succ]
      cases x with
      | zero =>
        rw [lexLt_cons_same]
        exact ih xs (by simpa using hs)
      | succ x' => simp [lexLt]

/-! ## Computation lemmas for the growth bound -/

theorem foldr_max_init (c : ℕ) :
    ∀ (l : List ℕ), l.foldr max c = max (l.foldr max 0) c := by
  intro l
  induction l with
  | nil => simp
  | cons x xs ih => simp [List.foldr_cons, ih, Nat.max_assoc]

theorem grb_take_eq (a : List ℕ) (rest : List ℕ) (j i : ℕ) (hij : i ≤ j)
    (hj : j ≤ a.length) : grb (a.take j ++ rest) i = grb a i := by
  unfold grb
  congr 2
  rw [List.take_append_eq_append_take]
  rw [List.length_take]
  rw [show i - min j a.length = 0 by omega, List.take_zero, List.append_nil,
    List.take_take, show min i j = i by omega]

theorem grb_set_eq (a : List ℕ) (k v i : ℕ) (hik : i ≤ k) :
    grb (a.set k v) i = grb a i := by
  unfold grb
  rw [take_set_of_le a k v i hik]

theorem grb_append_singleton (p : List ℕ) (w : ℕ) (rest : List ℕ) :
    grb (p ++ w :: rest) (p.length + 1) = max (grb p p.length) (w + 1) := by
  unfold grb
  rw [show p ++ w :: rest = (p ++ [w]) ++ rest by simp]
  rw [show p.length + 1 = (p ++ [w]).length by simp]
  rw [List.take_left, List.map_append, List.foldr_append]
  simp only [List.map_cons, List.map_nil, List.foldr_cons, List.foldr_nil]
  rw [List.take_length, show max (w + 1) 0 = w + 1 by omega, foldr_max_init]

theorem foldr_max_replicate_one : ∀ (t : ℕ), 1 ≤ t →
    (List.replicate t 1).foldr max 0 = 1 := by
  intro t
  induction t with
  | zero => intro h; omega
  | succ t ih =>
    intro _
    cases t with
    | zero => rfl
    | succ t' =>
      rw [List.replicate_succ, List.foldr_cons, ih (by omega)]
      omega

theorem grb_append_zeros (q : List ℕ) (k t : ℕ) (ht1 : 1 ≤ t) (ht2 : t ≤ k) :
    grb (q ++ List.replicate k 0) (q.length + t) = max (grb q q.length) 1 := by
  unfold grb
  rw [List.take_append, List.take_replicate, show min t k = t by omega]
  rw [List.map_append, List.foldr_append]
  rw [show (List.replicate t 0).map (· + 1) = List.replicate t 1 by
    simp [List.map_replicate]]
  rw [foldr_max_replicate_one t ht1, List.take_length, foldr_max_init]

theorem grb_replicate_zero (n i : ℕ) (h1 : 1 ≤ i) (h2 : i ≤ n) :
    grb (List.replicate n 0) i = 1 := by
  unfold grb
  rw [List.take_replicate, show min i n = i by omega]
  rw [show (List.replicate i 0).map (· + 1) = List.replicate i 1 by
    simp [List.map_replicate]]
  exact foldr_max_replicate_one i h1

theorem grb_pos (a : List ℕ) (i : ℕ) (h1 : 1 ≤ i) (h2 : i ≤ a.length) :
    1 ≤ grb a i := by
  unfold grb
  cases ht : a.take i with
  | nil =>
    exfalso
    have hl := congrArg List.length ht
    rw [List.length_take] at hl
    simp only [List.length_nil] at hl
    omega
  | cons x xs =>
    simp only [List.map_cons, List.foldr_cons]
    omega

theorem validFrom_replicate_zero : ∀ (n m : ℕ),
    validFrom m (List.replicate n 0) = true := by
  intro n
  induction n with
  | zero => intro m; rfl
  | succ n ih =>
    intro m
    rw [List.replicate_succ]
    simp only [validFrom, Bool.and_eq_true, decide_eq_true_eq]
    exact ⟨by omega, ih _⟩

/-- Key maximality lemma: a restricted-growth string whose every entry
beyond position `j` sits at its growth bound is lexicographically
maximal among the restricted-growth strings sharing its first `j + 1`
entries. -/
theorem lexLt_max_tail (n j : ℕ) (a s : List ℕ)
    (ha : a.length = n) (hs : s.length = n)
    (hvs : validFrom 0 s = true)
    (hmax : ∀ i, j < i → i < n → a.getD i 0 = grb a i)
    (hpre : a.take (j + 1) = s.take (j + 1)) :
    lexLt a s = false := by
  by_contra hcon
  rw [Bool.not_eq_false] at hcon
  obtain ⟨p, x, y, u, v, hxy, hsa, hst⟩ := lexLt_split a s (by omega) hcon
  have hℓn : p.length < n := by
    have := congrArg List.length hsa
    simp at this
    omega
  have hpa : a.take p.length = p := by rw [hsa]; exact List.take_left p _
  have hps : s.take p.length = p := by rw [hst]; exact List.take_left p _
  have hax : a.getD p.length 0 = x := by rw [hsa]; exact getD_append_at p x u
  have hsy : s.getD p.length 0 = y := by rw [hst]; exact getD_append_at p y v
  rcases Nat.lt_or_ge p.length (j + 1) with hcase | hcase
  · have heq : a.getD p.length 0 = s.getD p.length 0 := by
      have h1 := congrArg (fun l => l.getD p.length 0) hpre
      simp only [getD_take _ _ _ hcase] at h1
      exact h1
    omega
  · have hgrb : grb s p.length = grb a p.length := by
      unfold grb
      rw [hpa, hps]
    have hsy_le : s.getD p.length 0 ≤ grb s p.length := by
      have := (validFrom_iff_grb s 0).mp hvs p.length (by omega)
      simpa using this
    have hgx : a.getD p.length 0 = grb a p.length := hmax p.length (by omega) hℓn
    omega

theorem filter_tail_step (n : ℕ) (a succ : List ℕ)
    (ha : a.length = n) (hva : validFrom 0 a = true)
    (hsl : succ.length = n) (hvs : validFrom 0 succ = true)
    (hlt : lexLt a succ = true)
    (hmin : ∀ s, s.length = n → validFrom 0 s = true → lexLt a s = true →
      lexLt s succ = false) :
    (allRGSStrings n).filter (fun s => ! lexLt s a) =
      a :: (allRGSStrings n).filter (fun s => ! lexLt s succ) := by
  have hmem : a ∈ allRGSStrings n := (mem_rgsAux n 0 a).mpr ⟨ha, hva⟩
  obtain ⟨l1, l2, hdecomp⟩ := List.append_of_mem hmem
  have hpw := sorted_rgsAux n 0
  rw [show rgsAux n 0 = allRGSStrings n from rfl, hdecomp, List.pairwise_append] at hpw
  obtain ⟨hpw1, hpw2, hcross⟩ := hpw
  have hl1lt : ∀ x ∈ l1, lexLt x a = true := fun x hx =>
    hcross x hx a (List.mem_cons_self _ _)
  have hl2gt : ∀ y ∈ l2, lexLt a y = true := (List.pairwise_cons.mp hpw2).1
  have hl2rgs : ∀ y ∈ l2, y.length = n ∧ validFrom 0 y = true := by
    intro y hy
    refine (mem_rgsAux n 0 y).mp ?_
    rw [show rgsAux n 0 = allRGSStrings n from rfl, hdecomp]
    exact List.mem_append_right _ (List.mem_cons_of_mem _ hy)
  rw [hdecomp, List.filter_append, List.filter_append, List.filter_cons,
    List.filter_cons]
  have e1 : l1.filter (fun s => ! lexLt s a) = [] := by
    rw [List.filter_eq_nil_iff]
    intro x hx
    simp [hl1lt x hx]
  have e2 : l1.filter (fun s => ! lexLt s succ) = [] := by
    rw [List.filter_eq_nil_iff]
    intro x hx
    simp [lexLt_trans x a succ (hl1lt x hx) hlt]
  have e3 : l2.filter (fun s => ! lexLt s a) = l2 := by
    rw [List.filter_eq_self]
    intro y hy
    simp [lexLt_asymm a y (hl2gt y hy)]
  have e4 : l2.filter (fun s => ! lexLt s succ) = l2 := by
    rw [List.filter_eq_self]
    intro y hy
    obtain ⟨hyl, hyv⟩ := hl2rgs y hy
    simp [hmin y hyl hyv (hl2gt y hy)]
  rw [e1, e2, e3, e4]
  simp [lexLt_irrefl, hlt]

theorem filter_tail_max (n : ℕ) (a : List ℕ)
    (ha : a.length = n) (hva : validFrom 0 a = true)
    (hmax : ∀ s, s.length = n → validFrom 0 s = true → lexLt a s = false) :
    (allRGSStrings n).filter (fun s => ! lexLt s a) = [a] := by
  have hmem : a ∈ allRGSStrings n := (mem_rgsAux n 0 a).mpr ⟨ha, hva⟩
  obtain ⟨l1, l2, hdecomp⟩ := List.append_of_mem hmem
  have hpw := sorted_rgsAux n 0
  rw [show rgsAux n 0 = allRGSStrings n from rfl, hdecomp, List.pairwise_append] at hpw
  obtain ⟨hpw1, hpw2, hcross⟩ := hpw
  have hl1lt : ∀ x ∈ l1, lexLt x a = true := fun x hx =>
    hcross x hx a (List.mem_cons_self _ _)
  have hl2gt : ∀ y ∈ l2, lexLt a y = true := (List.pairwise_cons.mp hpw2).1
  have hl2nil : l2 = [] := by
    rw [List.eq_nil_iff_forall_not_mem]
    intro y hy
    have h1 := hl2gt y hy
    have hyin : y ∈ allRGSStrings n := by
      rw [hdecomp]
      exact List.mem_append_right _ (List.mem_cons_of_mem _ hy)
    obtain ⟨hyl, hyv⟩ := (mem_rgsAux n 0 y).mp hyin
    rw [hmax y hyl hyv] at h1
    cases h1
  subst hl2nil
  rw [hdecomp, List.filter_append, List.filter_cons]
  have e1 : l1.filter (fun s => ! lexLt s a) = [] := by
    rw [List.filter_eq_nil_iff]
    intro x hx
    simp [hl1lt x hx]
  rw [e1]
  simp [lexLt_irrefl]

theorem filter_tail_zero (n : ℕ) :
    (allRGSStrings n).filter (fun s => ! lexLt s (List.replicate n 0)) =
      allRGSStrings n := by
  rw [List.filter_eq_self]
  intro s hs
  obtain ⟨hl, _⟩ := (mem_rgsAux n 0 s).mp hs
  simp [lexLt_zeros n s hl]

/-- If a list of the form `a.take m ++ z` equals `p ++ w`, and
`p.length ≤ m ≤ a.length`, then `p` is an initial segment of `a`. -/
theorem eq_take_of_take_append (a : List ℕ) (m : ℕ) (z p w : List ℕ)
    (hpm : p.length ≤ m) (hm : m ≤ a.length)
    (heq : a.take m ++ z = p ++ w) : p = a.take p.length := by
  have h1 := congrArg (List.take p.length) heq
  rw [List.take_append_eq_append_take, List.take_append_eq_append_take] at h1
  rw [List.length_take, show p.length - min m a.length = 0 by omega,
    List.take_zero, List.append_nil, List.take_take,
    show min p.length m = p.length by omega] at h1
  rw [show p.length - p.length = 0 by omega, List.take_zero, List.append_nil,
    List.take_length] at h1
  exact h1.symm

/-- Step 3 of Algorithm H (increment the last entry): validity, strict
lexicographic increase, minimality among larger restricted-growth
strings, and preservation of the loop invariant. -/
theorem step_noncarry (n : ℕ) (hn : 2 ≤ n) (a b : List ℕ)
    (hinv : HInv n a b)
    (hne : a.getD (n - 1) 0 ≠ b.getD (n - 1) 0) :
    validFrom 0 (a.set (n - 1) (a.getD (n - 1) 0 + 1)) = true ∧
    (a.set (n - 1) (a.getD (n - 1) 0 + 1)).length = n ∧
    lexLt a (a.set (n - 1) (a.getD (n - 1) 0 + 1)) = true ∧
    (∀ s, s.length = n → validFrom 0 s = true → lexLt a s = true →
      lexLt s (a.set (n - 1) (a.getD (n - 1) 0 + 1)) = false) ∧
    HInv n (a.set (n - 1) (a.getD (n - 1) 0 + 1)) b := by
  obtain ⟨ha, hb, hva, hb0, hbi⟩ := hinv
  have hlast_le : a.getD (n - 1) 0 ≤ grb a (n - 1) := by
    have := (validFrom_iff_grb a 0).mp hva (n - 1) (by omega)
    simpa using this
  have hblast : b.getD (n - 1) 0 = grb a (n - 1) := hbi (n - 1) (by omega) (by omega)
  have hlast_lt : a.getD (n - 1) 0 < grb a (n - 1) := by omega
  have htklen : (a.take (n - 1)).length = n - 1 := by
    rw [List.length_take]; omega
  have hset : a.set (n - 1) (a.getD (n - 1) 0 + 1) =
      a.take (n - 1) ++ [a.getD (n - 1) 0 + 1] :=
    set_last_eq a (n - 1) _ (by omega)
  have hadec : a = a.take (n - 1) ++ [a.getD (n - 1) 0] := by
    conv_lhs => rw [take_getD_drop a (n - 1) (by omega)]
    rw [show a.drop (n - 1 + 1) = [] from List.drop_eq_nil_iff.mpr (by omega)]
  have hlen : (a.set (n - 1) (a.getD (n - 1) 0 + 1)).length = n := by
    simp [ha]
  have hvsucc : validFrom 0 (a.set (n - 1) (a.getD (n - 1) 0 + 1)) = true := by
    rw [validFrom_iff_grb]
    intro i hi
    rw [hlen] at hi
    rcases Nat.lt_or_ge i (n - 1) with hi1 | hi1
    · rw [getD_set_ne a _ _ i (by omega), grb_set_eq a _ _ i (by omega)]
      exact (validFrom_iff_grb a 0).mp hva i (by omega)
    · have hieq : i = n - 1 := by omega
      subst hieq
      rw [getD_set_self a _ _ (by omega), grb_set_eq a _ _ (n - 1) (le_refl _)]
      omega
  have hlt : lexLt a (a.set (n - 1) (a.getD (n - 1) 0 + 1)) = true := by
    rw [hset]
    nth_rewrite 1 [hadec]
    exact lexLt_of_split (a.take (n - 1)) [] [] (by omega)
  have hmin : ∀ s, s.length = n → validFrom 0 s = true → lexLt a s = true →
      lexLt s (a.set (n - 1) (a.getD (n - 1) 0 + 1)) = false := by
    intro s hsl hsv has
    by_contra hcon
    rw [Bool.not_eq_false, hset] at hcon
    obtain ⟨p, x, y, u, v, hxy, hs_eq, hsucc_eq⟩ :=
      lexLt_split s (a.take (n - 1) ++ [a.getD (n - 1) 0 + 1])
        (by rw [hsl, List.length_append, htklen]; simp; omega) hcon
    have hplen : p.length + 1 + v.length = n := by
      have := congrArg List.length hsucc_eq
      simp [htklen] at this
      omega
    have hp_eq : p = a.take p.length :=
      eq_take_of_take_append a (n - 1) [a.getD (n - 1) 0 + 1] p (y :: v)
        (by omega) (by omega) hsucc_eq
    rcases Nat.lt_or_ge p.length (n - 1) with hc | hc
    · have hy_eq : y = a.getD p.length 0 := by
        have h1 : (a.take (n - 1) ++ [a.getD (n - 1) 0 + 1]).getD p.length 0 = y := by
          rw [hsucc_eq]; exact getD_append_at p y v
        rw [List.getD_append _ _ _ _ (by omega), getD_take a (n - 1) p.length hc] at h1
        exact h1.symm
      have hslt : lexLt s a = true := by
        rw [hs_eq, hp_eq]
        nth_rewrite 2 [take_getD_drop a p.length (by omega)]
        exact lexLt_of_split (a.take p.length) u (a.drop (p.length + 1)) (by omega)
      have := lexLt_asymm s a hslt
      rw [this] at has
      cases has
    · have hpl_eq : p.length = n - 1 := by omega
      have hy : y = a.getD (n - 1) 0 + 1 := by
        have h1 : (a.take (n - 1) ++ [a.getD (n - 1) 0 + 1]).getD p.length 0 = y := by
          rw [hsucc_eq]; exact getD_append_at p y v
        rw [show p.length = (a.take (n - 1)).length by omega] at h1
        rw [getD_append_at] at h1
        exact h1.symm
      have hu : u = [] := by
        have := congrArg List.length hs_eq
        simp [hsl] at this
        rw [← List.length_eq_zero]
        omega
      rcases Nat.lt_or_ge x (a.getD (n - 1) 0) with hxa | hxa
      · have hslt : lexLt s a = true := by
          rw [hs_eq, hp_eq, hpl_eq]
          nth_rewrite 2 [hadec]
          exact lexLt_of_split (a.take (n - 1)) u [] hxa
        have := lexLt_asymm s a hslt
        rw [this] at has
        cases has
      · have hxeq : x = a.getD (n - 1) 0 := by omega
        have hseq : s = a := by
          rw [hs_eq, hp_eq, hpl_eq, hu, hxeq, ← hadec]
        rw [hseq, lexLt_irrefl] at has
        cases has
  refine ⟨hvsucc, hlen, hlt, hmin, hlen, hb, hvsucc, hb0, ?_⟩
  intro i h1 h2
  rw [grb_set_eq a _ _ i (by omega)]
  exact hbi i h1 h2

theorem take_succ_getD (a : List ℕ) (j : ℕ) (h : j < a.length) :
    a.take (j + 1) = a.take j ++ [a.getD j 0] := by
  have h1 := congrArg (List.take (j + 1)) (take_getD_drop a j h)
  rw [List.take_append_eq_append_take, List.length_take,
    show j + 1 - min j a.length = 1 by omega, List.take_take,
    show min (j + 1) j = j by omega] at h1
  simpa using h1

/-- Steps 4-6 of Algorithm H (carry into position `j`): validity,
strict lexicographic increase, minimality among larger
restricted-growth strings, and preservation of the loop invariant
with the updated bound array. -/
theorem step_carry (n : ℕ) (hn : 2 ≤ n) (a b : List ℕ) (j : ℕ)
    (hinv : HInv n a b)
    (hlast : a.getD (n - 1) 0 = b.getD (n - 1) 0)
    (hj : findJ a b = some j) (hj0 : j ≠ 0) :
    validFrom 0 (a.take j ++ (a.getD j 0 + 1) :: List.replicate (n - 1 - j) 0) = true ∧
    (a.take j ++ (a.getD j 0 + 1) :: List.replicate (n - 1 - j) 0).length = n ∧
    lexLt a (a.take j ++ (a.getD j 0 + 1) :: List.replicate (n - 1 - j) 0) = true ∧
    (∀ s, s.length = n → validFrom 0 s = true → lexLt a s = true →
      lexLt s (a.take j ++ (a.getD j 0 + 1) :: List.replicate (n - 1 - j) 0) = false) ∧
    HInv n (a.take j ++ (a.getD j 0 + 1) :: List.replicate (n - 1 - j) 0)
      (b.take (j + 1) ++ List.replicate (n - 1 - j)
        (b.getD j 0 + if a.getD j 0 + 1 = b.getD j 0 then 1 else 0)) := by
  obtain ⟨ha, hb, hva, hb0, hbi⟩ := hinv
  obtain ⟨hjlt, hjne, hjeq⟩ := (findJ_eq_some_iff a b j).mp hj
  rw [ha] at hjlt
  have hj1 : 1 ≤ j := by omega
  have hbj : b.getD j 0 = grb a j := hbi j hj1 (by omega)
  have haj_le : a.getD j 0 ≤ grb a j := by
    have := (validFrom_iff_grb a 0).mp hva j (by omega)
    simpa using this
  have haj_lt : a.getD j 0 < grb a j := by
    rw [hbj] at hjne
    omega
  have hmaxtail : ∀ i, j < i → i < n → a.getD i 0 = grb a i := by
    intro i h1 h2
    rcases Nat.lt_or_ge i (n - 1) with h3 | h3
    · rw [hjeq i h1 (by omega)]
      exact hbi i (by omega) h2
    · have : i = n - 1 := by omega
      subst this
      rw [hlast]
      exact hbi (n - 1) (by omega) (by omega)
  have htkj : (a.take j).length = j := by rw [List.length_take]; omega
  have hsucclen :
      (a.take j ++ (a.getD j 0 + 1) :: List.replicate (n - 1 - j) 0).length = n := by
    simp [htkj]
    omega
  have hgrb_tk : ∀ i, i ≤ j → grb (a.take j ++ (a.getD j 0 + 1) ::
      List.replicate (n - 1 - j) 0) i = grb a i := by
    intro i hij
    exact grb_take_eq a _ j i hij (by omega)
  have hsucc_getD_lt : ∀ i, i < j →
      (a.take j ++ (a.getD j 0 + 1) :: List.replicate (n - 1 - j) 0).getD i 0 =
        a.getD i 0 := by
    intro i hij
    rw [List.getD_append _ _ _ _ (by omega)]
    exact getD_take a j i hij
  have hsucc_getD_j :
      (a.take j ++ (a.getD j 0 + 1) :: List.replicate (n - 1 - j) 0).getD j 0 =
        a.getD j 0 + 1 := by
    have := getD_append_at (a.take j) (a.getD j 0 + 1) (List.replicate (n - 1 - j) 0)
    rwa [htkj] at this
  have hsucc_getD_gt : ∀ i, j < i → i < n →
      (a.take j ++ (a.getD j 0 + 1) :: List.replicate (n - 1 - j) 0).getD i 0 = 0 := by
    intro i h1 h2
    rw [List.getD_append_right _ _ _ _ (by omega)]
    rw [htkj]
    rw [show i - j = (i - j - 1) + 1 by omega, List.getD_cons_succ]
    exact getD_replicate 0 _ _ (by omega)
  have hvsucc : validFrom 0 (a.take j ++ (a.getD j 0 + 1) ::
      List.replicate (n - 1 - j) 0) = true := by
    rw [validFrom_iff_grb]
    intro i hi
    rw [hsucclen] at hi
    rcases Nat.lt_trichotomy i j with h1 | h1 | h1
    · rw [hsucc_getD_lt i h1, hgrb_tk i (by omega)]
      exact (validFrom_iff_grb a 0).mp hva i (by omega)
    · rw [h1, hsucc_getD_j, hgrb_tk j (le_refl _)]
      omega
    · rw [hsucc_getD_gt i h1 hi]
      omega
  have hadecj : a = a.take j ++ a.getD j 0 :: a.drop (j + 1) :=
    take_getD_drop a j (by omega)
  have hlt : lexLt a (a.take j ++ (a.getD j 0 + 1) ::
      List.replicate (n - 1 - j) 0) = true := by
    nth_rewrite 1 [hadecj]
    exact lexLt_of_split (a.take j) _ _ (by omega)
  have hmin : ∀ s, s.length = n → validFrom 0 s = true → lexLt a s = true →
      lexLt s (a.take j ++ (a.getD j 0 + 1) ::
        List.replicate (n - 1 - j) 0) = false := by
    intro s hsl hsv has
    by_contra hcon
    rw [Bool.not_eq_false] at hcon
    obtain ⟨p, x, y, u, v, hxy, hs_eq, hsucc_eq⟩ :=
      lexLt_split s (a.take j ++ (a.getD j 0 + 1) :: List.replicate (n - 1 - j) 0)
        (by rw [hsl, hsucclen]) hcon
    have hplen : p.length + 1 + v.length = n := by
      have := congrArg List.length hsucc_eq
      rw [hsucclen] at this
      simp at this
      omega
    have hy_at : (a.take j ++ (a.getD j 0 + 1) ::
        List.replicate (n - 1 - j) 0).getD p.length 0 = y := by
      rw [hsucc_eq]
      exact getD_append_at p y v
    rcases Nat.lt_trichotomy p.length j with hc | hc | hc
    · have hp_eq : p = a.take p.length :=
        eq_take_of_take_append a j ((a.getD j 0 + 1) :: List.replicate (n - 1 - j) 0)
          p (y :: v) (by omega) (by omega) hsucc_eq
      have hy_eq : y = a.getD p.length 0 := by
        rw [hsucc_getD_lt p.length hc] at hy_at
        exact hy_at.symm
      have hslt : lexLt s a = true := by
        rw [hs_eq, hp_eq]
        nth_rewrite 2 [take_getD_drop a p.length (by omega)]
        exact lexLt_of_split (a.take p.length) u (a.drop (p.length + 1)) (by omega)
      have := lexLt_asymm s a hslt
      rw [this] at has
      cases has
    · have hp_eq : p = a.take j := by
        have := eq_take_of_take_append a j
          ((a.getD j 0 + 1) :: List.replicate (n - 1 - j) 0)
          p (y :: v) (by omega) (by omega) hsucc_eq
        rw [this, hc]
      have hy_eq : y = a.getD j 0 + 1 := by
        rw [hc] at hy_at
        rw [hsucc_getD_j] at hy_at
        exact hy_at.symm
      rcases Nat.lt_or_ge x (a.getD j 0) with hxa | hxa
      · have hslt : lexLt s a = true := by
          rw [hs_eq, hp_eq]
          nth_rewrite 2 [hadecj]
          exact lexLt_of_split (a.take j) u _ hxa
        have := lexLt_asymm s a hslt
        rw [this] at has
        cases has
      · have hxeq : x = a.getD j 0 := by omega
        have hpre : a.take (j + 1) = s.take (j + 1) := by
          rw [take_succ_getD a j (by omega), hs_eq, hp_eq]
          rw [show j + 1 = (a.take j).length + 1 by rw [htkj]]
          rw [List.take_append]
          rw [hxeq]
          rfl
        have := lexLt_max_tail n j a s ha hsl hsv hmaxtail hpre
        rw [this] at has
        cases has
    · have hy0 : y = 0 := by
        rw [hsucc_getD_gt p.length hc (by omega)] at hy_at
        exact hy_at.symm
      omega
  refine ⟨hvsucc, hsucclen, hlt, hmin, hsucclen, ?_, hvsucc, ?_, ?_⟩
  · have hbtk : (b.take (j + 1)).length = j + 1 := by
      rw [List.length_take]
      omega
    simp [hbtk]
    omega
  · rw [List.getD_append _ _ _ _ (by rw [List.length_take]; omega)]
    rw [getD_take b (j + 1) 0 (by omega)]
    exact hb0
  · intro i h1 h2
    have hbtk : (b.take (j + 1)).length = j + 1 := by
      rw [List.length_take]
      omega
    have hgrbq : grb (a.take j ++ (a.getD j 0 + 1) ::
        List.replicate (n - 1 - j) 0) (j + 1) =
        max (grb a j) (a.getD j 0 + 2) := by
      have h3 := grb_append_singleton (a.take j) (a.getD j 0 + 1)
        (List.replicate (n - 1 - j) 0)
      rw [htkj] at h3
      rw [h3]
      have h4 : grb (a.take j) j = grb a j := by
        unfold grb
        rw [List.take_take, Nat.min_self]
      rw [h4]
    rcases Nat.lt_or_ge i (j + 1) with h3 | h3
    · rw [List.getD_append _ _ _ _ (by omega), getD_take b (j + 1) i h3,
        hgrb_tk i (by omega)]
      exact hbi i h1 h2
    · rw [List.getD_append_right _ _ _ _ (by omega), hbtk]
      rw [getD_replicate _ _ _ (by omega)]
      rcases Nat.eq_or_lt_of_le h3 with h4 | h4
      · rw [← h4, hgrbq, hbj]
        split_ifs with h5 <;> omega
      · have hq : a.take j ++ (a.getD j 0 + 1) :: List.replicate (n - 1 - j) 0 =
            (a.take j ++ [a.getD j 0 + 1]) ++ List.replicate (n - 1 - j) 0 := by
          simp
        have hqlen : (a.take j ++ [a.getD j 0 + 1]).length = j + 1 := by
          simp [htkj]
        have h5 := grb_append_zeros (a.take j ++ [a.getD j 0 + 1])
          (n - 1 - j) (i - (j + 1)) (by omega) (by omega)
        rw [hqlen] at h5
        rw [← hq, show j + 1 + (i - (j + 1)) = i by omega] at h5
        rw [h5]
        have h6 : grb (a.take j ++ [a.getD j 0 + 1]) (j + 1) =
            max (grb a j) (a.getD j 0 + 2) := by
          have h7 := grb_append_singleton (a.take j) (a.getD j 0 + 1) []
          rw [htkj] at h7
          rw [h7]
          unfold grb
          rw [List.take_take, Nat.min_self]
        rw [h6, hbj]
        have hgpos : 1 ≤ grb a j := grb_pos a j hj1 (by omega)
        split_ifs with h7 <;> omega

theorem take_one_of_valid (s : List ℕ) (hl : 1 ≤ s.length)
    (hv : validFrom 0 s = true) : s.take 1 = [0] := by
  cases s with
  | nil => simp at hl
  | cons x t =>
    simp only [validFrom, Bool.and_eq_true, decide_eq_true_eq] at hv
    have hx : x = 0 := by omega
    subst hx
    rfl

/-- Termination of Algorithm H (`j = 0`): the current string is
lexicographically maximal among all restricted-growth strings of its
length. -/
theorem step_terminal (n : ℕ) (hn : 2 ≤ n) (a b : List ℕ)
    (hinv : HInv n a b)
    (hlast : a.getD (n - 1) 0 = b.getD (n - 1) 0)
    (hj : findJ a b = some 0) :
    ∀ s, s.length = n → validFrom 0 s = true → lexLt a s = false := by
  obtain ⟨ha, hb, hva, hb0, hbi⟩ := hinv
  obtain ⟨hjlt, hjne, hjeq⟩ := (findJ_eq_some_iff a b 0).mp hj
  have hmaxtail : ∀ i, 0 < i → i < n → a.getD i 0 = grb a i := by
    intro i h1 h2
    rcases Nat.lt_or_ge i (n - 1) with h3 | h3
    · rw [hjeq i h1 (by omega)]
      exact hbi i (by omega) h2
    · have hieq : i = n - 1 := by omega
      subst hieq
      rw [hlast]
      exact hbi (n - 1) (by omega) (by omega)
  intro s hsl hsv
  have hpre : a.take 1 = s.take 1 := by
    rw [take_one_of_valid a (by omega) hva, take_one_of_valid s (by omega) hsv]
  exact lexLt_max_tail n 0 a s ha hsl hsv hmaxtail hpre

/-- The Algorithm H loop, started in an invariant state with enough
fuel, appends to its accumulator exactly the restricted-growth strings
from the current one onward, in lexicographic order. -/
theorem hLoop_spec (n : ℕ) (hn : 2 ≤ n) :
    ∀ (fuel : ℕ) (a b : List ℕ) (acc : List (List ℕ)),
      HInv n a b →
      ((allRGSStrings n).filter (fun s => ! lexLt s a)).length ≤ fuel →
      hLoop fuel a b acc =
        acc ++ (allRGSStrings n).filter (fun s => ! lexLt s a) := by
  intro fuel
  induction fuel with
  | zero =>
    intro a b acc hinv hfuel
    exfalso
    obtain ⟨ha, hb, hva, _, _⟩ := hinv
    have hmem : a ∈ (allRGSStrings n).filter (fun s => ! lexLt s a) := by
      rw [List.mem_filter]
      exact ⟨(mem_rgsAux n 0 a).mpr ⟨ha, hva⟩, by simp [lexLt_irrefl]⟩
    have := List.length_pos.mpr (List.ne_nil_of_mem hmem)
    omega
  | succ fuel ih =>
    intro a b acc hinv hfuel
    obtain ⟨ha, hb, hva, hb0, hbi⟩ := hinv
    have ha0 : a.getD 0 0 = 0 := by
      have h := (validFrom_iff_grb a 0).mp hva 0 (by omega)
      simp only [grb_zero, Nat.max_self] at h
      omega
    simp only [hLoop]
    rw [ha]
    by_cases hlast : a.getD (n - 1) 0 = b.getD (n - 1) 0
    · rw [if_pos hlast]
      have hne : a.getD 0 0 ≠ b.getD 0 0 := by
        rw [ha0, hb0]
        omega
      obtain ⟨j, hj⟩ := findJ_exists a b (by omega) hne
      simp only [hj]
      by_cases hj0 : j = 0
      · rw [if_pos hj0]
        subst hj0
        have hmax := step_terminal n hn a b ⟨ha, hb, hva, hb0, hbi⟩ hlast hj
        rw [filter_tail_max n a ha hva hmax]
      · rw [if_neg hj0]
        obtain ⟨hvs, hsl, hlt, hmin, hinv'⟩ :=
          step_carry n hn a b j ⟨ha, hb, hva, hb0, hbi⟩ hlast hj hj0
        have hstep := filter_tail_step n a
          (a.take j ++ (a.getD j 0 + 1) :: List.replicate (n - 1 - j) 0)
          ha hva hsl hvs hlt hmin
        have hflen : ((allRGSStrings n).filter (fun s => ! lexLt s
            (a.take j ++ (a.getD j 0 + 1) ::
              List.replicate (n - 1 - j) 0))).length ≤ fuel := by
          rw [hstep] at hfuel
          simp only [List.length_cons] at hfuel
          omega
        have hrec := ih
          (a.take j ++ (a.getD j 0 + 1) :: List.replicate (n - 1 - j) 0)
          (b.take (j + 1) ++ List.replicate (n - 1 - j)
            (b.getD j 0 + if a.getD j 0 + 1 = b.getD j 0 then 1 else 0))
          (acc ++ [a]) hinv' hflen
        rw [hrec, hstep]
        simp
    · rw [if_neg hlast]
      obtain ⟨hvs, hsl, hlt, hmin, hinv'⟩ :=
        step_noncarry n hn a b ⟨ha, hb, hva, hb0, hbi⟩ hlast
      have hstep := filter_tail_step n a
        (a.set (n - 1) (a.getD (n - 1) 0 + 1)) ha hva hsl hvs hlt hmin
      have hflen : ((allRGSStrings n).filter (fun s => ! lexLt s
          (a.set (n - 1) (a.getD (n - 1) 0 + 1)))).length ≤ fuel := by
        rw [hstep] at hfuel
        simp only [List.length_cons] at hfuel
        omega
      have hrec := ih (a.set (n - 1) (a.getD (n - 1) 0 + 1)) b
        (acc ++ [a]) hinv' hflen
      rw [hrec, hstep]
      simp

/-- `generate_set_partition_strings` produces exactly the
restricted-growth strings of length `n`, in lexicographic order. -/
theorem gen_eq_allRGSStrings (n : ℕ) (hn : 1 ≤ n) :
    generate_set_partition_strings n = allRGSStrings n := by
  rcases Nat.lt_or_ge n 2 with h2 | h2
  · have h1 : n = 1 := by omega
    subst h1
    decide
  · unfold generate_set_partition_strings
    rw [if_neg (by omega), if_neg (by omega)]
    have hinv : HInv n (List.replicate n 0) (List.replicate n 1) := by
      refine ⟨by simp, by simp, validFrom_replicate_zero n 0, ?_, ?_⟩
      · exact getD_replicate 1 n 0 (by omega)
      · intro i h1i h2i
        rw [getD_replicate 1 n i h2i, grb_replicate_zero n i h1i (by omega)]
    have hfuel : ((allRGSStrings n).filter
        (fun s => ! lexLt s (List.replicate n 0))).length ≤ (n + 1) ^ n := by
      have hle1 : ((allRGSStrings n).filter
          (fun s => ! lexLt s (List.replicate n 0))).length ≤
          (allRGSStrings n).length := List.length_filter_le _ _
      have hle2 : (allRGSStrings n).length ≤ (0 + n) ^ n := rgsAux_length_le n 0
      have hle3 : (0 + n) ^ n ≤ (n + 1) ^ n := by
        rw [Nat.zero_add]
        exact Nat.pow_le_pow_left (by omega) n
      omega
    have hrun := hLoop_spec n h2 ((n + 1) ^ n) (List.replicate n 0)
      (List.replicate n 1) [] hinv hfuel
    rw [hrun, filter_tail_zero, List.nil_append]

/-- C2: for every `n ≥ 1`, `generate_set_partition_strings` returns a
list of exactly the `n`-th Bell number of restricted-growth strings
(1, 2, 5, 15 strings for `n` = 1, 2, 3, 4), and for `n = 0` it returns
empty output. -/
theorem C2_bell_counts (n : ℕ) (hn : 1 ≤ n) :
    (generate_set_partition_strings n).length = bellNumber n ∧
    (∀ s ∈ generate_set_partition_strings n,
      s.length = n ∧ validFrom 0 s = true) ∧
    bellNumber 1 = 1 ∧ bellNumber 2 = 2 ∧ bellNumber 3 = 5 ∧
    bellNumber 4 = 15 ∧ generate_set_partition_strings 0 = [] := by
  have hgen := gen_eq_allRGSStrings n hn
  refine ⟨by rw [hgen]; rfl, ?_, by decide, by decide, by decide, by decide, rfl⟩
  intro s hs
  rw [hgen] at hs
  exact (mem_rgsAux n 0 s).mp hs

theorem C2_bell_counts_witness :
    (generate_set_partition_strings 3).length = 5 :=
  ((C2_bell_counts 3 (by decide)).1).trans (by decide)

end gptools
